import Mathlib

/-!
# Verification of the zmh-search runtime query engine

A shallow embedding of `src/worker/searchWorker.ts` (the runtime search
worker of zmh-search).  JS strings are modelled as lists of Unicode code
points (`List Nat`); typed arrays (`Uint16Array`, `Float32Array`,
`Uint8Array`) are modelled as total functions with the out-of-bounds
semantics of JS typed arrays made explicit (reads outside `[0, count)`
yield `undefined`, writes are discarded; hence every out-of-range access
is a no-op on the array).  32-bit machine integers are modelled as `Nat`
with wrapping made explicit where it matters (`% 65536` on the
`Uint16Array` hit counters).  `Float32` relevance scores are modelled as
exact rationals: every claim below concerns either result membership,
ordering of the pipeline's stages, or reset-to-zero behaviour, none of
which depend on rounding of the positive score increments.
-/

namespace ZmhSearch

/-! ## Text model: the normalizer fragment (searchWorker.ts lines 281-285)

`normText` delegates to the JS runtime: `String.prototype.normalize("NFKC")`,
`String.prototype.toLowerCase`, and the Unicode property escape
`/[^\p{Letter}\p{Number}]+/gu`.  We embed the fragment of Unicode these
exercise on the inputs appearing in this development, faithful on that
fragment per the Unicode standard:

* NFKC: the algorithmic Hangul composition of UAX #15: a leading
  consonant jamo (L, U+1100..U+1112) followed by a vowel jamo (V,
  U+1161..U+1175) composes into the precomposed LV syllable
  `0xAC00 + ((L - 0x1100) * 21 + (V - 0x1161)) * 28`, and an LV syllable
  (U+AC00..U+D7A3 with `(s - 0xAC00) % 28 = 0`) followed by a trailing
  consonant jamo (T, U+11A8..U+11C2) composes into `s + (T - 0x11A7)`;
  identity on all other code points used here (ASCII and CJK have no
  NFKC decompositions).
* `toLowerCase`: the ASCII case table; identity elsewhere.
* letter-or-number: ASCII digits and letters, Hangul jamo (U+1100..U+11FF,
  category Lo), Hangul syllables (U+AC00..U+D7A3, Lo), CJK unified
  ideographs (U+4E00..U+9FFF, Lo).  Space and the hyphens are not in L*/N*.
-/

/-- Hangul canonical composition (UAX #15), the NFKC fragment used
here: L+V composes to an LV syllable, and an LV syllable followed by a
trailing jamo T composes to the LVT syllable — both for a pair in the
text and for a trailing jamo right after a freshly composed LV.  An LVT
syllable has `(s - 0xAC00) % 28 ≠ 0` and composes no further, so
scanning resumes after it. -/
def composeHangul : List Nat → List Nat
  | [] => []
  | [a] => [a]
  | [a, b] =>
    if 0x1100 ≤ a ∧ a ≤ 0x1112 ∧ 0x1161 ≤ b ∧ b ≤ 0x1175 then
      [0xAC00 + ((a - 0x1100) * 21 + (b - 0x1161)) * 28]
    else if 0xAC00 ≤ a ∧ a ≤ 0xD7A3 ∧ (a - 0xAC00) % 28 = 0 ∧
        0x11A8 ≤ b ∧ b ≤ 0x11C2 then
      [a + (b - 0x11A7)]
    else
      [a, b]
  | a :: b :: c :: rest =>
    if 0x1100 ≤ a ∧ a ≤ 0x1112 ∧ 0x1161 ≤ b ∧ b ≤ 0x1175 then
      let s := 0xAC00 + ((a - 0x1100) * 21 + (b - 0x1161)) * 28
      if 0x11A8 ≤ c ∧ c ≤ 0x11C2 then
        (s + (c - 0x11A7)) :: composeHangul rest
      else
        s :: composeHangul (c :: rest)
    else if 0xAC00 ≤ a ∧ a ≤ 0xD7A3 ∧ (a - 0xAC00) % 28 = 0 ∧
        0x11A8 ≤ b ∧ b ≤ 0x11C2 then
      (a + (b - 0x11A7)) :: composeHangul (c :: rest)
    else
      a :: composeHangul (b :: c :: rest)

/-- `toLowerCase` on the embedded fragment: the ASCII case table. -/
def toLowerCP (c : Nat) : Nat :=
  if 65 ≤ c ∧ c ≤ 90 then c + 32 else c

/-- The `\p{Letter}\p{Number}` test on the embedded fragment. -/
def isAlnumCP (c : Nat) : Bool :=
  decide ((48 ≤ c ∧ c ≤ 57) ∨ (97 ≤ c ∧ c ≤ 122) ∨ (65 ≤ c ∧ c ≤ 90) ∨
    (0x1100 ≤ c ∧ c ≤ 0x11FF) ∨ (0xAC00 ≤ c ∧ c ≤ 0xD7A3) ∨
    (0x4E00 ≤ c ∧ c ≤ 0x9FFF))

/-- `normText` (searchWorker.ts:282): NFKC-compose, lowercase, drop every
code point that is not a letter or number.  (The early return for the
empty string coincides with the general path.) -/
def normText (text : List Nat) : List Nat :=
  ((composeHangul text).map toLowerCP).filter isAlnumCP

/-! ## Query parsing (searchWorker.ts lines 287-306) -/

/-- The JS `\s` class on the code points used here (space, tab, CR, LF,
FF, VT, NBSP, ideographic space). -/
def isWs (c : Nat) : Bool :=
  c == 32 || c == 9 || c == 10 || c == 13 || c == 12 || c == 11 ||
  c == 0xA0 || c == 0x3000

/-- Maximal runs of characters satisfying `keep`; modelling both
`raw.trim().split(/\s+/).filter(Boolean)` (with `keep = !isWs`) and
`text.split(sep).filter(Boolean)` (with `keep = (· != sep)`), which both
return exactly the nonempty maximal runs. -/
def splitRuns (keep : Nat → Bool) : List Nat → List Nat → List (List Nat)
  | [], acc => if acc.isEmpty then [] else [acc.reverse]
  | c :: rest, acc =>
    if keep c then splitRuns keep rest (c :: acc)
    else if acc.isEmpty then splitRuns keep rest []
    else acc.reverse :: splitRuns keep rest []

/-- Insertion into a JS `Set` viewed as its insertion-ordered element
list: add at the end unless already present. -/
def pushUniq (acc : List (List Nat)) (x : List Nat) : List (List Nat) :=
  if x ∈ acc then acc else acc ++ [x]

/-- Lexicographic comparison of code-point lists: the default JS
`Array.prototype.sort()` string order (code-unit lexicographic; equal to
code-point order on the BMP). -/
def lexLe : List Nat → List Nat → Bool
  | [], _ => true
  | _ :: _, [] => false
  | a :: as, b :: bs => if a < b then true else if b < a then false else lexLe as bs

/-- `lexLe` as a `Prop` relation, for use with `List.insertionSort`. -/
def LexLeP (a b : List Nat) : Prop := lexLe a b = true

instance : DecidableRel LexLeP := fun a b => by unfold LexLeP; infer_instance

/-- `.sort()` of a JS array of strings: a sort by `lexLe`.  (JS `sort` is
any stable comparison sort; on duplicate-free inputs the result is the
unique `lexLe`-sorted permutation, so insertion sort models it exactly
where it is used — on deduplicated term lists.) -/
def sortLex (l : List (List Nat)) : List (List Nat) :=
  List.insertionSort LexLeP l

structure ParsedQuery where
  includeTerms : List (List Nat)
  excludeTerms : List (List Nat)
deriving DecidableEq, Repr

/-- The per-part body of `parseQuery`'s loop (searchWorker.ts 294-302):
classify the part as exclusion (`-`/`－` head and more than one
character), normalize the body, drop it when shorter than 2, else add to
the matching `Set`. -/
def parseStep (st : List (List Nat) × List (List Nat)) (p : List Nat) :
    List (List Nat) × List (List Nat) :=
  let head := p.headD 0
  let isExcl := (head == 45 || head == 0xFF0D) && p.length > 1
  let body := if isExcl then p.tail else p
  let n := normText body
  if n.length < 2 then st
  else if isExcl then (st.1, pushUniq st.2 n)
  else (pushUniq st.1 n, st.2)

/-- `parseQuery` (searchWorker.ts:290): whitespace-split; accumulate the
include/exclude `Set`s; exclusion wins on overlap; sort both lists. -/
def parseQuery (raw : List Nat) : ParsedQuery :=
  let parts := splitRuns (fun c => !isWs c) raw []
  let st := parts.foldl parseStep ([], [])
  let excludeTerms := sortLex st.2
  let includeTerms := sortLex (st.1.filter (fun t => decide (t ∉ st.2)))
  ⟨includeTerms, excludeTerms⟩

/-! ## N-grams and token keys (searchWorker.ts lines 308-336) -/

/-- `uniqNgrams` (searchWorker.ts:308): the deduplicated list of length-`n`
sliding windows, in first-occurrence order; empty when the text is
shorter than `n`. -/
def uniqNgrams (text : List Nat) (n : Nat) : List (List Nat) :=
  if text.length < n then []
  else (List.range (text.length - n + 1)).foldl
    (fun acc i => pushUniq acc ((text.drop i).take n)) []

/-- `tokenKey` (searchWorker.ts:317): `null` unless the token has exactly
two code units, else `a * 65536 + b`.  (Code points coincide with code
units on the BMP, where all tokens in this development live.) -/
def tokenKey (token : List Nat) : Option Nat :=
  match token with
  | [a, b] => some (a * 65536 + b)
  | _ => none

/-- `findKey` (searchWorker.ts:325): binary search over the sorted key
array, returning the index or `-1`.  `lo`/`hi` are modelled as `Int`
(`hi` starts at `length - 1`, which is `-1` on an empty dictionary);
`(lo + hi) >>> 1` is floor division by two on the in-range nonnegative
values it is applied to.  The `while (lo <= hi)` loop shrinks the span
`hi + 1 - lo` by at least one each iteration, so it runs at most
`keys.length` times; `fuel`, set to `keys.length + 1` at the entry
point, makes that bound a structural recursion measure and never runs
out. -/
def findKeyGo (keys : List Nat) (key : Nat) : Nat → Int → Int → Int
  | 0, _, _ => -1
  | fuel + 1, lo, hi =>
    if lo ≤ hi then
      let mid := (lo + hi) / 2
      let v := keys.getD mid.toNat 0
      if v == key then mid
      else if v < key then findKeyGo keys key fuel (mid + 1) hi
      else findKeyGo keys key fuel lo (mid - 1)
    else -1

def findKey (keys : List Nat) (key : Nat) : Int :=
  findKeyGo keys key (keys.length + 1) 0 (keys.length - 1)

/-! ## Varint posting decoding (searchWorker.ts lines 338-360) -/

/-- A 32-bit pattern (a `Nat` below `2^32`) reinterpreted as the signed
JS `Int32` value. -/
def toSigned32 (v : Nat) : Int :=
  if v % 2 ^ 32 < 2 ^ 31 then ((v % 2 ^ 32 : Nat) : Int)
  else ((v % 2 ^ 32 : Nat) : Int) - 2 ^ 32

/-- The body of `decodePostings`: the outer loop emits one doc-id per
varint group; the inner loop accumulates `value |= (b & 0x7f) << shift`.
`b & 0x7f` is `b % 128`; `(b & 0x80) === 0` is `b % 256 < 128`.  The JS
`<<` and `|` are 32-bit: the accumulator is carried as the unsigned
reinterpretation of the `Int32` bits (`value ||| ...` on `Nat` is the
bitwise or of the patterns), the shift count is masked to 5 bits, the
shifted chunk is truncated to 32 bits, and the emitted `prev + value`
reads the accumulator as a signed `Int32` (`toSigned32`).  Arithmetic is
exact below `2^31` and wraps at the JS boundaries above it. -/
def decodeLoop : List Nat → Int → Nat → Nat → List Int
  | [], _, _, _ => []
  | b :: rest, prev, shift, value =>
    if b % 256 < 128 then
      let v := toSigned32 (value ||| ((b % 128) * 2 ^ (shift % 32) % 2 ^ 32))
      (prev + v) :: decodeLoop rest (prev + v) 0 0
    else
      decodeLoop rest prev (shift + 7)
        (value ||| ((b % 128) * 2 ^ (shift % 32) % 2 ^ 32))

/-- `decodePostings` (searchWorker.ts:338) on the byte range
`[offset, offset + length)`, seeded with `prev = -1`, emitting doc-ids in
order (the `onDoc` callback's arguments, as a list). -/
def decodePostings (index : List Nat) (offset length : Nat) : List Int :=
  decodeLoop ((index.drop offset).take length) (-1) 0 0

/-- Unsigned LEB128 encoding of one value.  The recursion divides by
`128` each step, so the value itself bounds the number of steps: the
explicit bound makes the recursion structural and never runs out. -/
def encodeVarintGo : Nat → Nat → List Nat
  | 0, v => [v]
  | fuel + 1, v =>
    if v < 128 then [v] else (v % 128 + 128) :: encodeVarintGo fuel (v / 128)

def encodeVarint (v : Nat) : List Nat := encodeVarintGo v v

/-- Modelled from the spec: the offline index builder (not part of the
runtime worker source) delta-codes each strictly increasing posting list
"with unsigned LEB128 varint", each group encoding the difference from
the previous doc-id, seeded at `prev = -1`. -/
def encodePostings : List Nat → Int → List Nat
  | [], _ => []
  | d :: rest, prev => encodeVarint ((d : Int) - prev).toNat ++ encodePostings rest d

/-! ## Engine state (searchWorker.ts lines 31-127, 486-508)

`LoadedState` keeps the fields of the source's `LoadedState` that the
query pipeline reads or writes.  The per-doc string-pool indirection
(`metaShards`/`decodeString`/`metaShardId`) is flattened into per-doc
decoded strings (`titles`, `aliasesTexts`, `authorsTexts`): those
functions are pure reads of immutable pools, and every claim below is
insensitive to the pool layout.  `indexCache` maps a shard id to its
byte array; the claims concern `searchSync`, which `searchAsync` only
invokes after `ensureIndexForTokenIdxs` has loaded every needed shard,
so the map is modelled total.  The result cache key — a canonical string
in the source — is modelled as the record of the fields concatenated
into that string (term lists joined over characters they cannot contain,
plus fixed-word modes and numbers: the string encoding is injective, so
string equality coincides with record equality). -/

inductive FilterMode | any | only0 | only1
deriving DecidableEq, Repr

inductive SortMode | relevance | id_desc | id_asc
deriving DecidableEq, Repr

structure DictBin where
  version : Nat
  n : Nat
  keys : List Nat
  shardIds : List Nat
  offsets : List Nat
  lengths : List Nat
  dfs : List Nat
deriving DecidableEq, Repr

structure SearchMessage where
  requestId : Nat
  q : List Nat
  tagBits : List Int
  excludeTagBits : List Int
  hidden : FilterMode
  hideChapter : FilterMode
  needLogin : FilterMode
  lock : FilterMode
  sort : SortMode
  page : Int
  size : Int
deriving DecidableEq, Repr

structure PlanKey where
  sort : SortMode
  hidden : FilterMode
  hideChapter : FilterMode
  needLogin : FilterMode
  lock : FilterMode
  selectedLo : Nat
  selectedHi : Nat
  excludedLo : Nat
  excludedHi : Nat
  includeTerms : List (List Nat)
  excludeTerms : List (List Nat)
deriving DecidableEq, Repr

structure LoadedState where
  totalCount : Nat
  metaIds : List Int
  metaTagLo : List Nat
  metaTagHi : List Nat
  metaFlags : List Nat
  metaSep : Nat
  titles : List (List Nat)
  aliasesTexts : List (List Nat)
  authorsTexts : List (List Nat)
  dict : DictBin
  indexCache : Nat → List Nat
  counts : Nat → Nat
  scores : Nat → ℚ
  touched : List Nat
  cache : Option (PlanKey × List Nat)

structure ResultItem where
  id : Int
  title : List Nat
  aliases : List (List Nat)
  authors : List (List Nat)
  hidden : Bool
  isHideChapter : Bool
  needLogin : Bool
  isLock : Bool
deriving DecidableEq, Repr

structure ResultsMessage where
  requestId : Nat
  page : Nat
  size : Nat
  total : Nat
  hasMore : Bool
  items : List ResultItem
deriving DecidableEq, Repr

/-- `maskFromBits` (searchWorker.ts:664): negative bits skipped, bits 0-31
into `lo`, 32-63 into `hi`, larger bits ignored.  (JS `1 << bit` and `|=`
are 32-bit operations; the `Nat` values here are their unsigned
reinterpretations, under which all mask comparisons in `passesFilters`
are unchanged.) -/
def maskFromBits (bits : List Int) : Nat × Nat :=
  bits.foldl
    (fun (acc : Nat × Nat) (bit : Int) =>
      if bit < 0 then acc
      else if bit < 32 then (acc.1 ||| (1 <<< bit.toNat), acc.2)
      else if bit < 64 then (acc.1, acc.2 ||| (1 <<< (bit.toNat - 32)))
      else acc)
    (0, 0)

/-- One tri-state status check of `passesFilters`. -/
def checkFlagMode : FilterMode → Bool → Bool
  | .any, _ => true
  | .only0, b => !b
  | .only1, b => b

/-- `passesFilters` (searchWorker.ts:615): all selected tag bits present,
no excluded tag bit present, and the four tri-state flag filters.
Out-of-range doc-ids read `?? 0` defaults, as in the source. -/
def passesFilters (s : LoadedState) (docId : Nat)
    (selectedLo selectedHi excludedLo excludedHi : Nat)
    (hidden hideChapter needLogin lock : FilterMode) : Bool :=
  (if selectedLo ≠ 0 ∨ selectedHi ≠ 0 then
      (s.metaTagLo.getD docId 0) &&& selectedLo == selectedLo &&
      (s.metaTagHi.getD docId 0) &&& selectedHi == selectedHi
    else true) &&
  (excludedLo == 0 || (s.metaTagLo.getD docId 0) &&& excludedLo == 0) &&
  (excludedHi == 0 || (s.metaTagHi.getD docId 0) &&& excludedHi == 0) &&
  (checkFlagMode hidden ((s.metaFlags.getD docId 0) &&& 1 != 0)) &&
  (checkFlagMode hideChapter ((s.metaFlags.getD docId 0) &&& 2 != 0)) &&
  (checkFlagMode needLogin ((s.metaFlags.getD docId 0) &&& 4 != 0)) &&
  (checkFlagMode lock ((s.metaFlags.getD docId 0) &&& 8 != 0))

/-- `dictShardId` (searchWorker.ts:526). -/
def dictShardId (dict : DictBin) (tokenIdx : Nat) : Nat :=
  if dict.version == 2 then dict.shardIds.getD tokenIdx 0 else 0

/-- `decodeTokenIdxPostings` (searchWorker.ts:530): decode the token's
byte range from its shard, as the emitted doc-id list. -/
def postingsOf (s : LoadedState) (tokenIdx : Nat) : List Int :=
  decodePostings (s.indexCache (dictShardId s.dict tokenIdx))
    (s.dict.offsets.getD tokenIdx 0) (s.dict.lengths.getD tokenIdx 0)

/-- `Math.ceil(k * 0.6)`.  `0.6` is within `2^-54` relative error of 3/5
and `k * 0.6` rounds to nearest, so for every relevant `k` the double
computation equals `⌈3k/5⌉ = (3k + 4) / 5` exactly. -/
def ceil06 (k : Nat) : Nat := (3 * k + 4) / 5

/-- The token-index lookup loop shared by all term evaluations
(searchWorker.ts 763-770, 1004-1011, 1114-1121): keep, in token order,
the dictionary index of each token found by `tokenKey` + `findKey`. -/
def foundIdxs (dict : DictBin) (tokens : List (List Nat)) : List Nat :=
  tokens.filterMap (fun tk =>
    match tokenKey tk with
    | none => none
    | some key =>
      let idx := findKey dict.keys key
      if idx < 0 then none else some idx.toNat)

/-- `tokenIdxs.sort((a, b) => s.dict.dfs[a] - s.dict.dfs[b])`: ascending
document frequency.  (Stable sort; ties only affect decode order, which
no observable below depends on.) -/
def sortByDf (dict : DictBin) (idxs : List Nat) : List Nat :=
  List.insertionSort (fun a b => dict.dfs.getD a 0 ≤ dict.dfs.getD b 0) idxs

/-- One posting callback of the hit-counting loops (searchWorker.ts
777-783, 1018-1040, 1141-1163), acting on the `(counts, touched)` scratch
pair: skip unless the guard `g` accepts the doc; record first touch;
increment the `Uint16` counter (wrapping).  A doc-id outside
`[0, totalCount)` is a no-op: the guard reads compare `undefined`
(never `=== 1`, filters read `?? 0` without effect) and the counter
read/write is an out-of-bounds typed-array access. -/
def bumpDoc (N : Nat) (g : Nat → Bool) (st : (Nat → Nat) × List Nat) (d : Int) :
    (Nat → Nat) × List Nat :=
  if 0 ≤ d ∧ d < (N : Int) then
    let dn := d.toNat
    if g dn then
      let prev := st.1 dn
      (fun x => if x = dn then (prev + 1) % 65536 else st.1 x,
       if prev = 0 then st.2 ++ [dn] else st.2)
    else st
  else st

/-- Decode and count one token's postings. -/
def bumpToken (s : LoadedState) (g : Nat → Bool) (st : (Nat → Nat) × List Nat)
    (idx : Nat) : (Nat → Nat) × List Nat :=
  (postingsOf s idx).foldl (bumpDoc s.totalCount g) st

/-- The `for (const idx of tokenIdxs) decodeTokenIdxPostings(...)` loop. -/
def bumpTokens (s : LoadedState) (g : Nat → Bool) (idxs : List Nat)
    (st : (Nat → Nat) × List Nat) : (Nat → Nat) × List Nat :=
  idxs.foldl (bumpToken s g) st

/-- The `for (const docId of termTouched)` loop of `buildExcludeMask`
(searchWorker.ts:786-789): mark docs reaching the threshold, zero the
counter. -/
def exclMark (minHit : Nat) (st : (Nat → Nat) × (Nat → Bool)) (d : Nat) :
    (Nat → Nat) × (Nat → Bool) :=
  let mask' := if minHit ≤ st.1 d then (fun x => if x = d then true else st.2 x) else st.2
  (fun x => if x = d then 0 else st.1 x, mask')

/-- One exclude term of `buildExcludeMask` (searchWorker.ts:759-791). -/
def exclTermStep (s : LoadedState) (st : (Nat → Nat) × (Nat → Bool))
    (term : List Nat) : (Nat → Nat) × (Nat → Bool) :=
  let termTokens := uniqNgrams term s.dict.n
  if termTokens.isEmpty then st
  else
    let tokenIdxs := foundIdxs s.dict termTokens
    if tokenIdxs.isEmpty then st
    else
      let sortedIdxs := sortByDf s.dict tokenIdxs
      let minHitClamped := min (max 1 (ceil06 termTokens.length)) tokenIdxs.length
      let bumped := bumpTokens s (fun d => !st.2 d) sortedIdxs (st.1, [])
      bumped.2.foldl (exclMark minHitClamped) (bumped.1, st.2)

/-- `buildExcludeMask` (searchWorker.ts:755): the exclude bit-vector plus
the shared hit-counter array as the call leaves it. -/
def buildExcludeMask (s : LoadedState) (excludeTerms : List (List Nat)) :
    (Nat → Bool) × (Nat → Nat) :=
  let r := excludeTerms.foldl (exclTermStep s) (s.counts, fun _ => false)
  (r.2, r.1)

/-- `resetTouched` (searchWorker.ts:747) on one scratch array: zero every
touched slot. -/
def resetList {α : Type} [Zero α] (f : Nat → α) (l : List Nat) : Nat → α :=
  l.foldl (fun f d => fun x => if x = d then 0 else f x) f

/-! ## The include-term candidate pipeline (searchWorker.ts lines 993-1112,
1114-1230) -/

/-- `String.prototype.includes`: substring (contiguous infix) containment. -/
def containsSub (hay needle : List Nat) : Bool := decide (needle <:+: hay)

/-- One iteration of the multi-term hit-collection loop (searchWorker.ts
1043-1051): read the hit count, on reaching the threshold push a
first-scored doc into `candidates` and update its score (accumulated
coverage for relevance sort, the marker `1` otherwise), then zero the
counter. -/
def termCollect (isRel : Bool) (k minHit : Nat)
    (st : (Nat → Nat) × (Nat → ℚ) × List Nat) (d : Nat) :
    (Nat → Nat) × (Nat → ℚ) × List Nat :=
  let hit := st.1 d
  let next :=
    if minHit ≤ hit then
      let prev := st.2.1 d
      ((fun x => if x = d then (if isRel then prev + (hit : ℚ) / (k : ℚ) else 1)
                 else st.2.1 x),
       if prev = 0 then st.2.2 ++ [d] else st.2.2)
    else (st.2.1, st.2.2)
  ((fun x => if x = d then 0 else st.1 x), next.1, next.2)

/-- One include term of the multi-term path (searchWorker.ts 1000-1053). -/
def includeTermStep (s : LoadedState) (g : Nat → Bool) (isRel : Bool)
    (st : (Nat → Nat) × (Nat → ℚ) × List Nat) (term : List Nat) :
    (Nat → Nat) × (Nat → ℚ) × List Nat :=
  let termTokens := uniqNgrams term s.dict.n
  if termTokens.isEmpty then st
  else
    let tokenIdxs := foundIdxs s.dict termTokens
    if tokenIdxs.isEmpty then st
    else
      let sortedIdxs := sortByDf s.dict tokenIdxs
      let minHitClamped := min (max 1 (ceil06 termTokens.length)) tokenIdxs.length
      let bumped := bumpTokens s g sortedIdxs (st.1, [])
      bumped.2.foldl (termCollect isRel termTokens.length minHitClamped)
        (bumped.1, st.2.1, st.2.2)

/-- The full-text bonus pass of the multi-term relevance sort
(searchWorker.ts 1068-1090): for each candidate add `1.4`/`0.6`/`0.4`
(exactly `7/5`, `3/5`, `2/5` in the rational score model) per include
term contained in the normalized title/aliases/authors. -/
def bonusLoop (s : LoadedState) (terms : List (List Nat)) (sc : Nat → ℚ)
    (cands : List Nat) : Nat → ℚ :=
  cands.foldl
    (fun sc d =>
      let titleNorm := normText (s.titles.getD d [])
      let aliasesNorm := normText (s.aliasesTexts.getD d [])
      let authorsNorm := normText (s.authorsTexts.getD d [])
      let score := terms.foldl
        (fun acc term =>
          acc + (if containsSub titleNorm term then (7 : ℚ)/5 else 0)
              + (if containsSub aliasesNorm term then (3 : ℚ)/5 else 0)
              + (if containsSub authorsNorm term then (2 : ℚ)/5 else 0))
        (sc d)
      fun x => if x = d then score else sc x)
    sc

/-- The relevance comparator (searchWorker.ts 1092-1097, 1216-1221):
descending score, ties by descending external id. -/
def rankRel (sc : Nat → ℚ) (ids : List Int) (a b : Nat) : Prop :=
  sc b < sc a ∨ (sc b = sc a ∧ ids.getD b 0 ≤ ids.getD a 0)

instance (sc : Nat → ℚ) (ids : List Int) : DecidableRel (rankRel sc ids) :=
  fun _ _ => by unfold rankRel; infer_instance

/-- One iteration of the single-term relevance candidate loop
(searchWorker.ts 1192-1214): skip below-threshold docs, else score =
coverage plus the `qNorm` substring bonuses, and push the candidate. -/
def singleCollect (s : LoadedState) (qNorm : List Nat) (kq minHit : Nat)
    (cnt : Nat → Nat) (st : (Nat → ℚ) × List Nat) (d : Nat) :
    (Nat → ℚ) × List Nat :=
  let hit := cnt d
  if hit < minHit then st
  else
    let score := (hit : ℚ) / (kq : ℚ)
    let score := score +
      (if containsSub (normText (s.titles.getD d [])) qNorm then (7 : ℚ)/5 else 0)
    let score := score +
      (if containsSub (normText (s.aliasesTexts.getD d [])) qNorm then (3 : ℚ)/5 else 0)
    let score := score +
      (if containsSub (normText (s.authorsTexts.getD d [])) qNorm then (2 : ℚ)/5 else 0)
    ((fun x => if x = d then score else st.1 x), st.2 ++ [d])

/-- The ascending/descending corpus scans (searchWorker.ts 886-926,
940-982, 1168-1179): doc-ids in `[0, totalCount)` passing the predicate,
in the scan direction. -/
def scanFilter (N : Nat) (g : Nat → Bool) (asc : Bool) : List Nat :=
  (if asc then List.range N else (List.range N).reverse).filter g

/-- The all-identity-filters test of the empty-intent branch
(searchWorker.ts 863-872). -/
def identityFilters (selLo selHi exLo exHi : Nat)
    (hidden hideChapter needLogin lock : FilterMode) : Bool :=
  selLo == 0 && selHi == 0 && exLo == 0 && exHi == 0 &&
  hidden == .any && hideChapter == .any && needLogin == .any && lock == .any

/-- `splitList` (searchWorker.ts:659): split on the separator, dropping
empty pieces. -/
def splitList (text : List Nat) (sep : Nat) : List (List Nat) :=
  splitRuns (fun c => c != sep) text []

/-- `buildItem` (searchWorker.ts:711), on the flattened per-doc strings.
The cover-URL assembly and the tag-chip list are omitted: they are
further pure reads of the same immutable metadata and no claim concerns
them. -/
def buildItem (s : LoadedState) (docId : Nat) : ResultItem :=
  let f := s.metaFlags.getD docId 0
  { id := s.metaIds.getD docId 0
    title := s.titles.getD docId []
    aliases := splitList (s.aliasesTexts.getD docId []) s.metaSep
    authors := splitList (s.authorsTexts.getD docId []) s.metaSep
    hidden := f &&& 1 != 0
    isHideChapter := f &&& 2 != 0
    needLogin := f &&& 4 != 0
    isLock := f &&& 8 != 0 }

/-- `Math.max(1, Math.min(100, msg.size | 0))` (searchWorker.ts:844). -/
def clampSize (x : Int) : Nat := (max 1 (min 100 x)).toNat

/-- `Math.max(1, msg.page | 0)` (searchWorker.ts:845). -/
def clampPage (x : Int) : Nat := (max 1 x).toNat

/-- The result-cache key (searchWorker.ts:850, 838): the canonical plan
string, modelled as the record of its injectively concatenated fields. -/
def planKeyOf (msg : SearchMessage) : PlanKey :=
  let parsed := parseQuery msg.q
  let sel := maskFromBits msg.tagBits
  let exc := maskFromBits msg.excludeTagBits
  { sort := msg.sort, hidden := msg.hidden, hideChapter := msg.hideChapter
    needLogin := msg.needLogin, lock := msg.lock
    selectedLo := sel.1, selectedHi := sel.2
    excludedLo := exc.1, excludedHi := exc.2
    includeTerms := parsed.includeTerms, excludeTerms := parsed.excludeTerms }

/-- The tag/status filter of the current message, as a per-doc predicate. -/
def passFOf (s : LoadedState) (msg : SearchMessage) : Nat → Bool :=
  fun d =>
    passesFilters s d (maskFromBits msg.tagBits).1 (maskFromBits msg.tagBits).2
      (maskFromBits msg.excludeTagBits).1 (maskFromBits msg.excludeTagBits).2
      msg.hidden msg.hideChapter msg.needLogin msg.lock

/-- The per-doc guard every posting callback applies: not in the exclude
mask (when one was built) and passes the tag/status filters. -/
def guardOf (s : LoadedState) (msg : SearchMessage) : Nat → Bool :=
  fun d =>
    (if (parseQuery msg.q).excludeTerms.isEmpty then true
     else !(buildExcludeMask s (parseQuery msg.q).excludeTerms).1 d) &&
    passFOf s msg d

/-- `qNorm` (searchWorker.ts:836): the single include term, else the
empty string. -/
def qNormOf (msg : SearchMessage) : List Nat :=
  if (parseQuery msg.q).includeTerms.length == 1 then
    (parseQuery msg.q).includeTerms.headD []
  else []

/-- `queryTokens` (searchWorker.ts:837): bigrams of `qNorm` when it is
nonempty (JS string truthiness). -/
def queryTokensOf (s : LoadedState) (msg : SearchMessage) : List (List Nat) :=
  if (qNormOf msg).isEmpty then [] else uniqNgrams (qNormOf msg) s.dict.n

/-- The shared hit-counter array as the branches see it: untouched when
no exclude terms exist, else as `buildExcludeMask` (which runs first,
searchWorker.ts:860) leaves it. -/
def counts0Of (s : LoadedState) (msg : SearchMessage) : Nat → Nat :=
  if (parseQuery msg.q).excludeTerms.isEmpty then s.counts
  else (buildExcludeMask s (parseQuery msg.q).excludeTerms).2

/-- The no-query branch of `searchSync` (searchWorker.ts 862-935): with
all-identity filters, the empty-intent empty result; otherwise the
filtered corpus scan in the sort direction.  (`excludeTerms` is empty on
this branch, so no exclude mask exists and the scratch state is
untouched.) -/
def resolvePathA (s : LoadedState) (msg : SearchMessage) : List Nat × LoadedState :=
  if identityFilters (maskFromBits msg.tagBits).1 (maskFromBits msg.tagBits).2
      (maskFromBits msg.excludeTagBits).1 (maskFromBits msg.excludeTagBits).2
      msg.hidden msg.hideChapter msg.needLogin msg.lock then
    ([], s)
  else
    (scanFilter s.totalCount (passFOf s msg) (msg.sort == SortMode.id_asc), s)

/-- The exclude-only branch (searchWorker.ts 937-991): scan the corpus
in the sort direction, dropping docs that fail filters or sit in the
exclude mask; the mask build leaves the shared counters as its second
component. -/
def resolvePathB (s : LoadedState) (msg : SearchMessage) : List Nat × LoadedState :=
  let r := buildExcludeMask s (parseQuery msg.q).excludeTerms
  ((scanFilter s.totalCount (fun d => !r.1 d && passFOf s msg d)
      (msg.sort == SortMode.id_asc)),
   {s with counts := r.2})

/-- The tail of the multi-term branch after the per-term loop
(searchWorker.ts 1055-1111): empty result when no candidates, else the
relevance bonus pass + sort or the doc-id sort, with the score scratch
zeroed over the (sorted) candidate list. -/
def resolveCandidates (s : LoadedState) (msg : SearchMessage)
    (r : (Nat → Nat) × (Nat → ℚ) × List Nat) : List Nat × LoadedState :=
  if r.2.2.isEmpty then ([], {s with counts := r.1, scores := r.2.1})
  else if msg.sort == SortMode.relevance then
    let sc2 := bonusLoop s (parseQuery msg.q).includeTerms r.2.1 r.2.2
    let all := List.insertionSort (rankRel sc2 s.metaIds) r.2.2
    (all, {s with counts := r.1, scores := resetList sc2 all})
  else
    let all := List.insertionSort
      (fun a b => if msg.sort == SortMode.id_asc then a ≤ b else b ≤ a) r.2.2
    (all, {s with counts := r.1, scores := resetList r.2.1 all})

/-- The multi-term branch (searchWorker.ts 993-1112). -/
def resolvePathC (s : LoadedState) (msg : SearchMessage) : List Nat × LoadedState :=
  resolveCandidates s msg
    ((parseQuery msg.q).includeTerms.foldl
      (includeTermStep s (guardOf s msg) (msg.sort == SortMode.relevance))
      (counts0Of s msg, s.scores, []))

/-- The tail of the single-term branch after the counting loop
(searchWorker.ts 1166-1230): either the counter scan in doc-id order, or
the relevance candidate collection + sort; both end in `resetTouched`. -/
def resolveSingle (s : LoadedState) (msg : SearchMessage)
    (bumped : (Nat → Nat) × List Nat) : List Nat × LoadedState :=
  let minHitClamped := min (max 1 (ceil06 (queryTokensOf s msg).length))
    (foundIdxs s.dict (queryTokensOf s msg)).length
  if msg.sort == SortMode.id_desc || msg.sort == SortMode.id_asc then
    (scanFilter s.totalCount (fun d => minHitClamped ≤ bumped.1 d)
      (msg.sort == SortMode.id_asc),
     {s with counts := resetList bumped.1 bumped.2,
             scores := resetList s.scores bumped.2, touched := []})
  else
    let r := bumped.2.foldl
      (singleCollect s (qNormOf msg) (queryTokensOf s msg).length minHitClamped bumped.1)
      (s.scores, [])
    let all := List.insertionSort (rankRel r.1 s.metaIds) r.2
    (all, {s with counts := resetList bumped.1 bumped.2,
                  scores := resetList r.1 bumped.2, touched := []})

/-- The single-term branch (searchWorker.ts 1114-1230). -/
def resolvePathD (s : LoadedState) (msg : SearchMessage) : List Nat × LoadedState :=
  if (foundIdxs s.dict (queryTokensOf s msg)).isEmpty then
    ([], {s with counts := counts0Of s msg})
  else
    resolveSingle s msg (bumpTokens s (guardOf s msg)
      (sortByDf s.dict (foundIdxs s.dict (queryTokensOf s msg)))
      (counts0Of s msg, s.touched))

/-- The query-resolution body of `searchSync` (searchWorker.ts 860-1230
minus the common pagination tail): computes the fully resolved doc-id
vector for the plan, threading the scratch arrays exactly as the source
mutates them.  Every non-cached branch of the source ends in the
identical tail (store vector in cache, slice, build items); the early
empty-result returns are that same tail at the empty vector.  The
dispatch mirrors the source: `!hasQuery` is `includeTerms.isEmpty &&
excludeTerms.isEmpty`, then the `includeTerms.length === 0 / > 1 / == 1`
ladder. -/
def resolveAll (s : LoadedState) (msg : SearchMessage) : List Nat × LoadedState :=
  let parsed := parseQuery msg.q
  if parsed.includeTerms.isEmpty && parsed.excludeTerms.isEmpty then resolvePathA s msg
  else if parsed.includeTerms.isEmpty then resolvePathB s msg
  else if 1 < parsed.includeTerms.length then resolvePathC s msg
  else resolvePathD s msg

/-- The shared pagination tail of every `searchSync` return
(searchWorker.ts 852-857 and the identical tails at 928-934, 984-990,
1103-1111, 1181-1188, 1223-1230, with the early empty returns being this
tail at the empty vector): echo the clamped page and size, `total` is
the vector length, `hasMore` compares the slice's upper bound with it,
`items` are built from the `[offset, offset + size)` slice. -/
def mkPage (s : LoadedState) (requestId page size : Nat) (all : List Nat) :
    ResultsMessage :=
  { requestId := requestId, page := page, size := size
    total := all.length
    hasMore := decide ((page - 1) * size + size < all.length)
    items := ((all.drop ((page - 1) * size)).take size).map (buildItem s) }

/-- The cache-miss continuation of `searchSync`: resolve, store the
vector in the one-slot result cache under the plan key, paginate. -/
def searchMiss (s : LoadedState) (msg : SearchMessage) (page size : Nat)
    (key : PlanKey) : ResultsMessage × LoadedState :=
  let r := resolveAll s msg
  let s2 := {r.2 with cache := some (key, r.1)}
  (mkPage s2 msg.requestId page size r.1, s2)

/-- `searchSync` (searchWorker.ts:833): clamp pagination, consult the
result cache by plan key (hit: paginate the cached vector, no other
state change), otherwise resolve and paginate. -/
def searchSync (s : LoadedState) (msg : SearchMessage) :
    ResultsMessage × LoadedState :=
  let size := clampSize msg.size
  let page := clampPage msg.page
  let key := planKeyOf msg
  match s.cache with
  | some kc =>
    if kc.1 = key then (mkPage s msg.requestId page size kc.2, s)
    else searchMiss s msg page size key
  | none => searchMiss s msg page size key

/-! ## Derived notions used in theorem statements -/

/-- Scratch arrays in their resting configuration: all-zero counters and
scores, empty touched list (the state `init` constructs and, by the
invariant verified below, the state every completed search returns to). -/
def CleanScratch (s : LoadedState) : Prop :=
  s.counts = (fun _ => 0) ∧ s.scores = (fun _ => 0) ∧ s.touched = []

/-- Total number of posting occurrences of doc `x` across a token-index
list. -/
def occs (s : LoadedState) (idxs : List Nat) (x : Nat) : Nat :=
  (idxs.map (fun idx => (postingsOf s idx).count ((x : Nat) : Int))).sum

/-- The number of found tokens whose posting list contains doc `x`. -/
def hitTokens (s : LoadedState) (idxs : List Nat) (x : Nat) : Nat :=
  (idxs.filter (fun idx => decide (((x : Nat) : Int) ∈ postingsOf s idx))).length

/-- Doc `x` is a match for the term whose deduplicated token list is
`tt`, under guard `g`: some token was found in the dictionary, the guard
accepts `x`, `x` is a real doc-id, and the (wrapping `Uint16`) count of
posting occurrences across the found tokens reaches the clamped
threshold `min(max(1, ceil(0.6 k)), #found)`. -/
def TermMatchT (s : LoadedState) (g : Nat → Bool) (tt : List (List Nat)) (x : Nat) :
    Prop :=
  let idxs := foundIdxs s.dict tt
  idxs ≠ [] ∧ g x = true ∧ x < s.totalCount ∧
    min (max 1 (ceil06 tt.length)) idxs.length ≤ occs s idxs x % 65536

/-- Membership in the resolved doc-id vector, branch by branch of
`resolveAll`. -/
def ResolvePred (s : LoadedState) (msg : SearchMessage) (x : Nat) : Prop :=
  let parsed := parseQuery msg.q
  let sel := maskFromBits msg.tagBits
  let exc := maskFromBits msg.excludeTagBits
  if parsed.includeTerms.isEmpty && parsed.excludeTerms.isEmpty then
    identityFilters sel.1 sel.2 exc.1 exc.2
      msg.hidden msg.hideChapter msg.needLogin msg.lock = false ∧
    x < s.totalCount ∧ passFOf s msg x = true
  else if parsed.includeTerms.isEmpty then
    x < s.totalCount ∧ guardOf s msg x = true
  else if 1 < parsed.includeTerms.length then
    ∃ t ∈ parsed.includeTerms, TermMatchT s (guardOf s msg) (uniqNgrams t s.dict.n) x
  else
    TermMatchT s (guardOf s msg) (queryTokensOf s msg) x

/-! ## Concrete fixtures used by witnesses and counterexamples -/

/-- An empty dictionary (no known tokens). -/
def dict0 : DictBin :=
  { version := 1, n := 2, keys := [], shardIds := [], offsets := [], lengths := [],
    dfs := [] }

/-- A dictionary holding the single bigram "ab"
(`tokenKey = 97 * 65536 + 98`). -/
def dictAb : DictBin :=
  { version := 1, n := 2, keys := [6357090], shardIds := [0], offsets := [0],
    lengths := [1], dfs := [1] }

/-- A one-document corpus (the document has tag bit 0 set), with the
empty dictionary, clean scratch arrays and an empty result cache. -/
def stateOne : LoadedState :=
  { totalCount := 1, metaIds := [5], metaTagLo := [1], metaTagHi := [0],
    metaFlags := [0], metaSep := 10, titles := [[97]], aliasesTexts := [[]],
    authorsTexts := [[]], dict := dict0, indexCache := fun _ => [],
    counts := fun _ => 0, scores := fun _ => 0, touched := [], cache := none }

/-- The one-document corpus with the "ab" dictionary: token "ab"'s
posting bytes `[0x01]` decode (from `prev = -1`) to the single
document 0. -/
def stateAb : LoadedState :=
  { stateOne with dict := dictAb, indexCache := fun _ => [1] }

/-- A search message with an empty query, no tag bits and identity
status filters, ascending id sort, page 1 of 10. -/
def msgBase : SearchMessage :=
  { requestId := 0, q := [], tagBits := [], excludeTagBits := [],
    hidden := .any, hideChapter := .any, needLogin := .any, lock := .any,
    sort := SortMode.id_asc, page := 1, size := 10 }

/-- Query "-ab": one exclude term, no include terms. -/
def msgExclAb : SearchMessage := { msgBase with q := [45, 97, 98] }

/-- Query "abc": a single include term with bigrams "ab" and "bc". -/
def msgAbc : SearchMessage := { msgBase with q := [97, 98, 99] }

/-- Query "ab": a single include term with the one bigram "ab". -/
def msgAb : SearchMessage := { msgBase with q := [97, 98] }

/-- The base message with tag bit 0 selected. -/
def msgTag0 : SearchMessage := { msgBase with tagBits := [0] }

/-- The base message asking for page 2 under a different request id. -/
def msgPage2 : SearchMessage := { msgBase with requestId := 1, page := 2 }

end ZmhSearch

namespace ZmhSearch

/-! ## Order lemmas for the term sort -/

theorem lexLe_total (a b : List Nat) : lexLe a b = true ∨ lexLe b a = true := by
  induction a generalizing b with
  | nil => exact Or.inl rfl
  | cons x xs ih =>
    cases b with
    | nil => exact Or.inr rfl
    | cons y ys =>
      rcases Nat.lt_trichotomy x y with h | h | h
      · left; simp [lexLe, h]
      · subst h
        rcases ih ys with h2 | h2
        · left; simp [lexLe, h2]
        · right; simp [lexLe, h2]
      · right; simp [lexLe, h]

theorem lexLe_trans : ∀ {a b c : List Nat},
    lexLe a b = true → lexLe b c = true → lexLe a c = true
  | [], _, _, _, _ => rfl
  | _ :: _, [], _, h1, _ => by simp [lexLe] at h1
  | _ :: _, _ :: _, [], _, h2 => by simp [lexLe] at h2
  | x :: xs, y :: ys, z :: zs, h1, h2 => by
    simp only [lexLe] at h1 h2 ⊢
    rcases Nat.lt_trichotomy x y with hxy | hxy | hxy <;>
      rcases Nat.lt_trichotomy y z with hyz | hyz | hyz <;>
      simp_all [Nat.lt_irrefl] <;>
      first
        | (have : x < z := by omega
           simp_all)
        | (subst hxy; subst hyz
           simp_all [lexLe_trans h1 h2])
        | omega

instance : IsTotal (List Nat) LexLeP := ⟨lexLe_total⟩

instance : IsTrans (List Nat) LexLeP := ⟨fun _ _ _ => lexLe_trans⟩

theorem mem_pushUniq {acc : List (List Nat)} {x y : List Nat} :
    y ∈ pushUniq acc x ↔ y ∈ acc ∨ y = x := by
  unfold pushUniq
  split
  · constructor
    · exact Or.inl
    · rintro (h | rfl) <;> assumption
  · simp

theorem nodup_pushUniq {acc : List (List Nat)} {x : List Nat}
    (h : acc.Nodup) : (pushUniq acc x).Nodup := by
  unfold pushUniq
  split
  · exact h
  · rw [← List.concat_eq_append]
    exact List.Nodup.concat (by assumption) h

/-- Invariant of `parseQuery`'s accumulation loop: both `Set`s are
duplicate-free and hold only normalized terms of length at least 2. -/
theorem parseFold_inv (parts : List (List Nat))
    (st : List (List Nat) × List (List Nat))
    (h : st.1.Nodup ∧ st.2.Nodup ∧ (∀ t ∈ st.1, 2 ≤ t.length) ∧
         (∀ t ∈ st.2, 2 ≤ t.length)) :
    (parts.foldl parseStep st).1.Nodup ∧ (parts.foldl parseStep st).2.Nodup ∧
    (∀ t ∈ (parts.foldl parseStep st).1, 2 ≤ t.length) ∧
    (∀ t ∈ (parts.foldl parseStep st).2, 2 ≤ t.length) := by
  induction parts generalizing st with
  | nil => exact h
  | cons p rest ih =>
    apply ih
    obtain ⟨h1, h2, h3, h4⟩ := h
    simp only [parseStep]
    split <;> split <;>
      first
        | exact ⟨h1, h2, h3, h4⟩
        | (rename_i hlen
           refine ⟨h1, nodup_pushUniq h2, h3, ?_⟩
           intro t ht
           rcases mem_pushUniq.1 ht with ht | rfl
           · exact h4 t ht
           · omega)
        | (rename_i hlen
           refine ⟨nodup_pushUniq h1, h2, ?_, h4⟩
           intro t ht
           rcases mem_pushUniq.1 ht with ht | rfl
           · exact h3 t ht
           · omega)

/-- C5: for every raw query string, `parseQuery` returns deduplicated,
sorted include and exclude lists; the two lists are disjoint (a term
present on both sides is kept only as an exclusion), and every returned
term has normalized length at least 2. -/
theorem parseQuery_wellFormed (raw : List Nat) :
    (parseQuery raw).includeTerms.Nodup ∧
    (parseQuery raw).excludeTerms.Nodup ∧
    List.Sorted LexLeP (parseQuery raw).includeTerms ∧
    List.Sorted LexLeP (parseQuery raw).excludeTerms ∧
    (∀ t ∈ (parseQuery raw).includeTerms, t ∉ (parseQuery raw).excludeTerms) ∧
    (∀ t, t ∈ (parseQuery raw).includeTerms ∨ t ∈ (parseQuery raw).excludeTerms →
      2 ≤ t.length) := by
  have hinv := parseFold_inv (splitRuns (fun c => !isWs c) raw []) ([], [])
    (by refine ⟨List.nodup_nil, List.nodup_nil, ?_, ?_⟩ <;> intro t ht <;> cases ht)
  obtain ⟨h1, h2, h3, h4⟩ := hinv
  set st := (splitRuns (fun c => !isWs c) raw []).foldl parseStep ([], []) with hst
  have hperm_exc : (parseQuery raw).excludeTerms.Perm st.2 :=
    List.perm_insertionSort LexLeP st.2
  have hperm_inc :
      (parseQuery raw).includeTerms.Perm (st.1.filter (fun t => decide (t ∉ st.2))) :=
    List.perm_insertionSort LexLeP _
  refine ⟨?_, ?_, ?_, ?_, ?_, ?_⟩
  · exact hperm_inc.nodup_iff.2 (h1.filter _)
  · exact hperm_exc.nodup_iff.2 h2
  · exact List.sorted_insertionSort LexLeP _
  · exact List.sorted_insertionSort LexLeP _
  · intro t ht hte
    have h5 := hperm_inc.mem_iff.1 ht
    have h6 := List.of_mem_filter h5
    simp only [decide_eq_true_eq] at h6
    exact h6 (hperm_exc.mem_iff.1 hte)
  · intro t ht
    rcases ht with ht | ht
    · exact h3 t (List.mem_of_mem_filter (hperm_inc.mem_iff.1 ht))
    · exact h4 t (hperm_exc.mem_iff.1 ht)

/-! ## C7: normalization idempotence -/

theorem toLowerCP_idem (c : Nat) : toLowerCP (toLowerCP c) = toLowerCP c := by
  unfold toLowerCP
  split
  · rw [if_neg (by omega)]
  · rfl

/-- C7 counterexample: `normText` is not idempotent.  The input is a
Hangul leading jamo, a space, and a vowel jamo: the space keeps the jamo
apart under NFKC, normalization drops it, and a second normalization
composes the now-adjacent pair into the precomposed syllable U+AC00. -/
theorem normText_not_idempotent :
    normText (normText [0x1100, 32, 0x1161]) ≠ normText [0x1100, 32, 0x1161] := by
  decide

/-- C7 amended: `normText` is idempotent on every input whose normalized
form is NFKC-normalized (no newly adjacent composable pair, e.g. any
input without Hangul jamo); dropping non-alphanumeric code points can
otherwise denormalize the string. -/
theorem normText_idempotent_of_composed (x : List Nat)
    (h : composeHangul (normText x) = normText x) :
    normText (normText x) = normText x := by
  have hmem : ∀ c ∈ normText x, toLowerCP c = c ∧ isAlnumCP c = true := by
    intro c hc
    unfold normText at hc
    have h1 := List.of_mem_filter hc
    have h2 := List.mem_of_mem_filter hc
    rcases List.mem_map.1 h2 with ⟨a, _, rfl⟩
    exact ⟨toLowerCP_idem a, h1⟩
  nth_rewrite 1 [normText]
  rw [h]
  have hmap : (normText x).map toLowerCP = normText x := by
    have h2 : (normText x).map toLowerCP = (normText x).map id :=
      List.map_congr_left (fun a ha => (hmem a ha).1)
    rw [h2, List.map_id]
  rw [hmap]
  exact List.filter_eq_self.2 (fun a ha => (hmem a ha).2)

/-- Witness for the amended C7 at a concrete input. -/
theorem normText_idempotent_witness :
    normText (normText [65, 45, 98, 99]) = normText [65, 45, 98, 99] :=
  normText_idempotent_of_composed [65, 45, 98, 99] (by decide)

/-! ## C3: varint posting decode against delta encoding -/

theorem encodeVarintGo_congr : ∀ (f1 f2 v : Nat), v ≤ f1 → v ≤ f2 →
    encodeVarintGo f1 v = encodeVarintGo f2 v := by
  intro f1
  induction f1 with
  | zero =>
    intro f2 v h1 h2
    have hv : v = 0 := by omega
    subst hv
    cases f2 with
    | zero => rfl
    | succ f2 => simp [encodeVarintGo]
  | succ f ih =>
    intro f2 v h1 h2
    cases f2 with
    | zero =>
      have hv : v = 0 := by omega
      subst hv
      simp [encodeVarintGo]
    | succ f2 =>
      by_cases hv : v < 128
      · simp [encodeVarintGo, hv]
      · simp only [encodeVarintGo, if_neg hv]
        have hlt := Nat.div_lt_self (show 0 < v by omega) (show 1 < 128 by omega)
        rw [ih f2 (v / 128) (by omega) (by omega)]

/-- The defining equation of the LEB128 encoder. -/
theorem encodeVarint_eq (v : Nat) :
    encodeVarint v =
      if v < 128 then [v] else (v % 128 + 128) :: encodeVarint (v / 128) := by
  unfold encodeVarint
  by_cases hv : v < 128
  · rw [if_pos hv]
    cases v with
    | zero => rfl
    | succ k => simp [encodeVarintGo, hv]
  · rw [if_neg hv]
    obtain ⟨k, rfl⟩ : ∃ k, v = k + 1 := ⟨v - 1, by omega⟩
    have hlt := Nat.div_lt_self (show 0 < k + 1 by omega) (show 1 < 128 by omega)
    show encodeVarintGo (k + 1) (k + 1) = _
    simp only [encodeVarintGo, if_neg hv]
    rw [encodeVarintGo_congr k ((k + 1) / 128) ((k + 1) / 128) (by omega) (by omega)]

/-- Bitwise or is addition when the low operand sits below the high
operand's alignment. -/
theorem lor_mul_two_pow (s : Nat) : ∀ (a c : Nat), a < 2 ^ s →
    a ||| c * 2 ^ s = a + c * 2 ^ s := by
  induction s with
  | zero =>
    intro a c ha
    have h0 : a = 0 := by omega
    subst h0
    simp
  | succ m ih =>
    intro a c ha
    have hsucc : (2 : Nat) ^ (m + 1) = 2 * 2 ^ m := by ring
    have ha2 : a / 2 < 2 ^ m := by omega
    have hc : c * 2 ^ (m + 1) = Nat.bit false (c * 2 ^ m) := by
      rw [Nat.bit_val]
      simp only [Bool.toNat_false, Nat.add_zero]
      ring
    calc a ||| c * 2 ^ (m + 1)
        = Nat.bit (decide (a % 2 = 1)) (a >>> 1) ||| Nat.bit false (c * 2 ^ m) := by
          rw [Nat.bit_decide_mod_two_eq_one_shiftRight_one, ← hc]
      _ = Nat.bit (decide (a % 2 = 1) || false) ((a >>> 1) ||| c * 2 ^ m) :=
          Nat.lor_bit _ _ _ _
      _ = Nat.bit (decide (a % 2 = 1)) (a / 2 + c * 2 ^ m) := by
          rw [Bool.or_false, Nat.shiftRight_one, ih (a / 2) c ha2]
      _ = 2 * (a / 2 + c * 2 ^ m) + (decide (a % 2 = 1)).toNat := Nat.bit_val _ _
      _ = a + c * 2 ^ (m + 1) := by
          have hcc : c * 2 ^ (m + 1) = 2 * (c * 2 ^ m) := by ring
          rw [hcc]
          rcases Nat.mod_two_eq_zero_or_one a with h2 | h2 <;> simp [h2] <;> omega

/-- `toSigned32` is the plain value below `2^31`. -/
theorem toSigned32_of_lt {x : Nat} (h : x < 2 ^ 31) : toSigned32 x = (x : Int) := by
  unfold toSigned32
  have h32 : x < 2 ^ 32 := by omega
  rw [Nat.mod_eq_of_lt h32]
  rw [if_pos h]

theorem decodeLoop_encodeVarint (v : Nat) (rest : List Nat) (prev : Int)
    (shift value : Nat) (hsv : value < 2 ^ shift)
    (htot : value + v * 2 ^ shift < 2 ^ 31) :
    decodeLoop (encodeVarint v ++ rest) prev shift value =
      ((prev + (value + v * 2 ^ shift) : Int) ::
        decodeLoop rest (prev + (value + v * 2 ^ shift)) 0 0) := by
  induction v using Nat.strong_induction_on generalizing shift value with
  | _ v ih =>
    have hshift : v ≠ 0 → shift < 32 := by
      intro hv0
      by_contra hge
      have h1 : 2 ^ 32 ≤ 2 ^ shift :=
        Nat.pow_le_pow_right (by omega) (by omega)
      have h2 : 2 ^ shift ≤ v * 2 ^ shift :=
        Nat.le_mul_of_pos_left _ (by omega)
      omega
    rw [encodeVarint_eq]
    split
    · rename_i h
      simp only [List.append_eq, List.cons_append, List.nil_append, decodeLoop]
      rw [if_pos (by omega)]
      rcases Nat.eq_zero_or_pos v with hv0 | hv0
      · subst hv0
        have hlz : value ||| 0 % 128 * 2 ^ (shift % 32) % 2 ^ 32 = value := by
          simpa using lor_mul_two_pow shift value 0 hsv
        rw [hlz, toSigned32_of_lt (by omega)]
        push_cast
        ring_nf
      · have hs32 : shift < 32 := hshift (by omega)
        have hchunk : v % 128 * 2 ^ (shift % 32) % 2 ^ 32 = v * 2 ^ shift := by
          rw [Nat.mod_eq_of_lt h, Nat.mod_eq_of_lt hs32, Nat.mod_eq_of_lt (by omega)]
        rw [hchunk, lor_mul_two_pow shift value v hsv, toSigned32_of_lt (by omega)]
        push_cast
        ring_nf
    · rename_i h
      simp only [List.append_eq, List.cons_append, decodeLoop]
      rw [if_neg (by omega)]
      have hs32 : shift < 32 := hshift (by omega)
      have hb : (v % 128 + 128) % 128 = v % 128 := by omega
      have hmlt : v % 128 * 2 ^ shift ≤ v * 2 ^ shift :=
        Nat.mul_le_mul_right _ (Nat.mod_le v 128)
      have hchunk : (v % 128 + 128) % 128 * 2 ^ (shift % 32) % 2 ^ 32 =
          v % 128 * 2 ^ shift := by
        rw [hb, Nat.mod_eq_of_lt hs32, Nat.mod_eq_of_lt]
        have : (2 : Nat) ^ 31 < 2 ^ 32 := by norm_num
        omega
      rw [hchunk, lor_mul_two_pow shift value (v % 128) hsv]
      have hsv2 : value + v % 128 * 2 ^ shift < 2 ^ (shift + 7) := by
        have h1 : v % 128 < 128 := Nat.mod_lt _ (by omega)
        have h2 : v % 128 * 2 ^ shift ≤ 127 * 2 ^ shift :=
          Nat.mul_le_mul_right _ (by omega)
        have h3 : (2 : Nat) ^ (shift + 7) = 2 ^ shift * 128 := by
          rw [pow_add]
          norm_num
        omega
      have htot2 : value + v % 128 * 2 ^ shift + v / 128 * 2 ^ (shift + 7) =
          value + v * 2 ^ shift := by
        have h128 := Nat.div_add_mod v 128
        have h3 : (2 : Nat) ^ (shift + 7) = 2 ^ shift * 128 := by
          rw [pow_add]
          norm_num
        rw [h3]
        conv_rhs => rw [← h128]
        ring
      rw [ih (v / 128) (Nat.div_lt_self (by omega) (by omega)) (shift + 7)
        (value + v % 128 * 2 ^ shift) hsv2 (by omega)]
      have hval : ((value + v % 128 * 2 ^ shift : Nat) : ℤ) +
          ((v / 128 : Nat) : ℤ) * 2 ^ (shift + 7) =
          ((value : Nat) : ℤ) + ((v : Nat) : ℤ) * 2 ^ shift := by
        push_cast
        linear_combination ((2 : ℤ) ^ shift) * Int.ediv_add_emod (v : ℤ) 128
      rw [hval]

theorem decodeLoop_encodePostings (l : List Nat) : ∀ (prev : Int), -1 ≤ prev →
    List.Chain (· < ·) prev (l.map (fun d => Int.ofNat d)) →
    (∀ d ∈ l, d + 1 < 2 ^ 31) →
    decodeLoop (encodePostings l prev) prev 0 0 = l.map (fun d => Int.ofNat d) := by
  induction l with
  | nil => intro prev _ _ _; rfl
  | cons d rest ih =>
    intro prev hprev h h31
    simp only [Int.ofNat_eq_natCast] at h ⊢
    rw [List.map_cons, List.chain_cons] at h
    obtain ⟨hlt, hrest⟩ := h
    show decodeLoop (encodeVarint ((d : Int) - prev).toNat ++ encodePostings rest (d : Int))
        prev 0 0 = _
    have hd31 : d + 1 < 2 ^ 31 := h31 d (List.mem_cons_self d rest)
    have hdelta : ((d : Int) - prev).toNat ≤ d + 1 := by omega
    rw [decodeLoop_encodeVarint _ _ _ _ _ (by norm_num)
      (by rw [pow_zero, Nat.mul_one, Nat.zero_add]; omega)]
    have hnn : (0 : ℤ) ≤ (d : Int) - prev := by omega
    simp only [Nat.cast_zero, zero_add, pow_zero, mul_one, Int.toNat_of_nonneg hnn,
      List.map_cons]
    have hd : prev + ((d : Int) - prev) = (d : Int) := by ring
    rw [hd]
    refine congrArg _ ?_
    have h3 := ih (d : Int) (by omega)
    simp only [Int.ofNat_eq_natCast] at h3
    exact h3 hrest (fun d2 hd2 => h31 d2 (List.mem_cons_of_mem d hd2))

/-- C3 (amended): `decodePostings` reads the byte range
`[offset, offset + length)` as consecutive LEB128 varint groups, seeded
at `prev = -1`, emitting `prev + delta` per group; on any byte array
whose range holds the LEB128 delta encoding of a strictly increasing
doc-id list all of whose deltas are below `2^31` (with `prev = -1`,
`d + 1 < 2^31` suffices), it emits exactly that list in order.  At a
delta of `2^31` the JS 32-bit `<<` wraps and the decode diverges from
the list (see the counterexample). -/
theorem decodePostings_roundtrip (pre l post : List Nat)
    (hchain : List.Chain' (· < ·) l) (h31 : ∀ d ∈ l, d + 1 < 2 ^ 31) :
    decodePostings (pre ++ (encodePostings l (-1) ++ post)) pre.length
      (encodePostings l (-1)).length = l.map (fun d => Int.ofNat d) := by
  unfold decodePostings
  rw [List.drop_left, List.take_left]
  apply decodeLoop_encodePostings l (-1) (by norm_num) _ h31
  have hml : List.Chain' (· < ·) (l.map (fun d => Int.ofNat d)) :=
    (List.chain'_map _).2 (hchain.imp (fun _ _ hab => Int.ofNat_lt.2 hab))
  refine List.Chain'.cons' hml (fun y hy => ?_)
  rcases List.mem_map.1 (List.mem_of_mem_head? hy) with ⟨a, _, rfl⟩
  simp only [Int.ofNat_eq_natCast]
  omega

/-- C3 counterexample: the single doc-id `2^31 - 1` is strictly
increasing, but its delta from `prev = -1` is `2^31`, whose final varint
chunk `8 << 28` wraps to `-2^31` in the 32-bit `<<`: the decoder emits
`-2147483649`, not the encoded doc-id. -/
theorem decodePostings_wrap_counterexample :
    List.Chain' (· < ·) [2147483647] ∧
    decodePostings (encodePostings [2147483647] (-1)) 0
        (encodePostings [2147483647] (-1)).length = [-2147483649] ∧
    decodePostings (encodePostings [2147483647] (-1)) 0
        (encodePostings [2147483647] (-1)).length ≠
      [2147483647].map (fun d => Int.ofNat d) := by
  refine ⟨List.chain'_singleton _, by decide, by decide⟩

end ZmhSearch

namespace ZmhSearch

/-! ## Scratch-array fold lemmas -/

theorem resetList_apply {α : Type} [Zero α] (l : List Nat) :
    ∀ (f : Nat → α) (x : Nat), resetList f l x = if x ∈ l then 0 else f x := by
  induction l with
  | nil => intro f x; simp [resetList]
  | cons d rest ih =>
    intro f x
    show resetList (fun x => if x = d then 0 else f x) rest x = _
    rw [ih]
    by_cases h1 : x ∈ rest <;> by_cases h2 : x = d <;>
      simp [h1, h2, List.mem_cons]

theorem mem_scanFilter {N : Nat} {g : Nat → Bool} {asc : Bool} {x : Nat} :
    x ∈ scanFilter N g asc ↔ x < N ∧ g x = true := by
  unfold scanFilter
  cases asc <;> simp [List.mem_filter, List.mem_reverse, List.mem_range, and_comm]

theorem occs_perm (s : LoadedState) {l₁ l₂ : List Nat} (h : l₁.Perm l₂) (x : Nat) :
    occs s l₁ x = occs s l₂ x :=
  List.Perm.sum_eq (h.map _)

/-! ### Single posting callback -/

theorem bumpDoc_fst_apply (N : Nat) (g : Nat → Bool) (st : (Nat → Nat) × List Nat)
    (d : Int) (x : Nat) :
    (bumpDoc N g st d).1 x =
      if d = ((x : Nat) : Int) ∧ x < N ∧ g x = true then (st.1 x + 1) % 65536
      else st.1 x := by
  unfold bumpDoc
  by_cases h1 : 0 ≤ d ∧ d < (N : Int)
  · rw [if_pos h1]
    by_cases h2 : g d.toNat = true
    · rw [if_pos h2]
      show (if x = d.toNat then (st.1 d.toNat + 1) % 65536 else st.1 x) = _
      by_cases h4 : x = d.toNat
      · rw [if_pos h4, if_pos ⟨by omega, by omega, by rw [h4]; exact h2⟩, h4]
      · rw [if_neg h4, if_neg]
        rintro ⟨rfl, -, -⟩
        omega
    · rw [if_neg h2, if_neg]
      rintro ⟨rfl, -, hg⟩
      rw [show (((x : Nat) : Int)).toNat = x from by omega] at h2
      exact h2 hg
  · rw [if_neg h1, if_neg]
    rintro ⟨rfl, hx, -⟩
    exact h1 ⟨by omega, by omega⟩

theorem bumpDoc_snd_mono (N : Nat) (g : Nat → Bool) (st : (Nat → Nat) × List Nat)
    (d : Int) {y : Nat} (hy : y ∈ st.2) : y ∈ (bumpDoc N g st d).2 := by
  unfold bumpDoc
  by_cases h1 : 0 ≤ d ∧ d < (N : Int)
  · rw [if_pos h1]
    by_cases h2 : g d.toNat = true
    · rw [if_pos h2]
      show y ∈ (if st.1 d.toNat = 0 then st.2 ++ [d.toNat] else st.2)
      split
      · exact List.mem_append_left _ hy
      · exact hy
    · rw [if_neg h2]
      exact hy
  · rw [if_neg h1]
    exact hy

theorem bumpDoc_snd_sub (N : Nat) (g : Nat → Bool) (st : (Nat → Nat) × List Nat)
    (d : Int) {y : Nat} (hy : y ∈ (bumpDoc N g st d).2) :
    y ∈ st.2 ∨ (d = ((y : Nat) : Int) ∧ y < N ∧ g y = true) := by
  unfold bumpDoc at hy
  by_cases h1 : 0 ≤ d ∧ d < (N : Int)
  · rw [if_pos h1] at hy
    by_cases h2 : g d.toNat = true
    · rw [if_pos h2] at hy
      have hy2 : y ∈ (if st.1 d.toNat = 0 then st.2 ++ [d.toNat] else st.2) := hy
      clear hy
      by_cases h3 : st.1 d.toNat = 0
      · rw [if_pos h3] at hy2
        rename' hy2 => hy
        rcases List.mem_append.1 hy with hy | hy
        · exact Or.inl hy
        · rcases List.mem_singleton.1 hy with rfl
          exact Or.inr ⟨by omega, by omega, h2⟩
      · rw [if_neg h3] at hy2
        exact Or.inl hy2
    · rw [if_neg h2] at hy
      exact Or.inl hy
  · rw [if_neg h1] at hy
    exact Or.inl hy

theorem bumpDoc_P (N : Nat) (g : Nat → Bool) (st : (Nat → Nat) × List Nat) (d : Int)
    (hP : ∀ x, st.1 x ≠ 0 → x ∈ st.2) :
    ∀ x, (bumpDoc N g st d).1 x ≠ 0 → x ∈ (bumpDoc N g st d).2 := by
  intro x hx
  rw [bumpDoc_fst_apply] at hx
  by_cases hc : d = ((x : Nat) : Int) ∧ x < N ∧ g x = true
  · obtain ⟨rfl, hxN, hg⟩ := hc
    unfold bumpDoc
    rw [if_pos ⟨by omega, by omega⟩]
    rw [if_pos (show g (((x : Nat) : Int)).toNat = true from by
      rwa [show (((x : Nat) : Int)).toNat = x from by omega])]
    show x ∈ (if st.1 (((x : Nat) : Int)).toNat = 0 then
      st.2 ++ [(((x : Nat) : Int)).toNat] else st.2)
    by_cases h3 : st.1 (((x : Nat) : Int)).toNat = 0
    · rw [if_pos h3]
      refine List.mem_append_right _ ?_
      simp only [List.mem_singleton]
      omega
    · rw [if_neg h3]
      apply hP
      rwa [show (((x : Nat) : Int)).toNat = x from by omega] at h3
  · rw [if_neg hc] at hx
    exact bumpDoc_snd_mono N g st d (hP x hx)

/-! ### Folding the callback over a decoded posting list -/

theorem bumpFold_fst_apply (N : Nat) (g : Nat → Bool) (ds : List Int) :
    ∀ (st : (Nat → Nat) × List Nat) (x : Nat),
    ((ds.foldl (bumpDoc N g) st).1) x =
      if g x = true ∧ x < N ∧ 1 ≤ ds.count ((x : Nat) : Int) then
        (st.1 x + ds.count ((x : Nat) : Int)) % 65536
      else st.1 x := by
  induction ds with
  | nil => intro st x; simp
  | cons d rest ih =>
    intro st x
    rw [List.foldl_cons, ih, bumpDoc_fst_apply]
    have hcc : (d :: rest).count ((x : Nat) : Int) =
        rest.count ((x : Nat) : Int) + (if d = ((x : Nat) : Int) then 1 else 0) := by
      rw [List.count_cons]
      rcases eq_or_ne d ((x : Nat) : Int) with hdx | hdx
      · simp [hdx]
      · simp [hdx, hdx.symm]
    rw [hcc]
    by_cases hgx : g x = true ∧ x < N
    · by_cases hdx : d = ((x : Nat) : Int)
      · have hB : d = ((x : Nat) : Int) ∧ x < N ∧ g x = true := ⟨hdx, hgx.2, hgx.1⟩
        rw [if_pos hB, if_pos hdx]
        by_cases hr : 1 ≤ rest.count ((x : Nat) : Int)
        · have hA : g x = true ∧ x < N ∧ 1 ≤ rest.count ((x : Nat) : Int) :=
            ⟨hgx.1, hgx.2, hr⟩
          have hAt : g x = true ∧ x < N ∧ 1 ≤ rest.count ((x : Nat) : Int) + 1 :=
            ⟨hgx.1, hgx.2, by omega⟩
          rw [if_pos hA, if_pos hAt, Nat.mod_add_mod]
          congr 1
          omega
        · have hc0 : rest.count ((x : Nat) : Int) = 0 := by omega
          rw [hc0]
          have hA : ¬(g x = true ∧ x < N ∧ 1 ≤ 0) := fun hA2 => by omega
          have hAt : g x = true ∧ x < N ∧ 1 ≤ 0 + 1 := ⟨hgx.1, hgx.2, by omega⟩
          rw [if_neg hA, if_pos hAt]
      · have hB : ¬(d = ((x : Nat) : Int) ∧ x < N ∧ g x = true) := fun hB2 => hdx hB2.1
        rw [if_neg hB, if_neg hdx, add_zero]
    · have hB : ¬(d = ((x : Nat) : Int) ∧ x < N ∧ g x = true) :=
        fun hB2 => hgx ⟨hB2.2.2, hB2.2.1⟩
      have hA : ¬(g x = true ∧ x < N ∧ 1 ≤ rest.count ((x : Nat) : Int)) :=
        fun hA2 => hgx ⟨hA2.1, hA2.2.1⟩
      have hAt : ¬(g x = true ∧ x < N ∧
          1 ≤ rest.count ((x : Nat) : Int) + if d = ((x : Nat) : Int) then 1 else 0) :=
        fun hA2 => hgx ⟨hA2.1, hA2.2.1⟩
      rw [if_neg hB, if_neg hA, if_neg hAt]

theorem bumpFold_snd_mono (N : Nat) (g : Nat → Bool) (ds : List Int) :
    ∀ (st : (Nat → Nat) × List Nat) {y : Nat}, y ∈ st.2 →
      y ∈ (ds.foldl (bumpDoc N g) st).2 := by
  induction ds with
  | nil => intro st y hy; exact hy
  | cons d rest ih =>
    intro st y hy
    exact ih _ (bumpDoc_snd_mono N g st d hy)

theorem bumpFold_P (N : Nat) (g : Nat → Bool) (ds : List Int) :
    ∀ (st : (Nat → Nat) × List Nat),
      (∀ x, st.1 x ≠ 0 → x ∈ st.2) →
      ∀ x, (ds.foldl (bumpDoc N g) st).1 x ≠ 0 → x ∈ (ds.foldl (bumpDoc N g) st).2 := by
  induction ds with
  | nil => intro st h x hx; exact h x hx
  | cons d rest ih =>
    intro st h x hx
    exact ih _ (bumpDoc_P N g st d h) x hx

theorem bumpFold_snd_sub (N : Nat) (g : Nat → Bool) (ds : List Int) :
    ∀ (st : (Nat → Nat) × List Nat) {y : Nat},
      y ∈ (ds.foldl (bumpDoc N g) st).2 →
      y ∈ st.2 ∨ (1 ≤ ds.count ((y : Nat) : Int) ∧ y < N ∧ g y = true) := by
  induction ds with
  | nil => intro st y hy; exact Or.inl hy
  | cons d rest ih =>
    intro st y hy
    rcases ih _ hy with hy2 | hy2
    · rcases bumpDoc_snd_sub N g st d hy2 with hy3 | hy3
      · exact Or.inl hy3
      · refine Or.inr ⟨?_, hy3.2.1, hy3.2.2⟩
        rw [List.count_cons, hy3.1]
        simp
    · refine Or.inr ⟨?_, hy2.2.1, hy2.2.2⟩
      rw [List.count_cons]
      omega

theorem bumpTokens_eq_fold (s : LoadedState) (g : Nat → Bool) (idxs : List Nat) :
    ∀ st, bumpTokens s g idxs st =
      (idxs.bind (postingsOf s)).foldl (bumpDoc s.totalCount g) st := by
  induction idxs with
  | nil => intro st; rfl
  | cons i rest ih =>
    intro st
    unfold bumpTokens
    rw [List.foldl_cons,
      show (i :: rest).bind (postingsOf s) = postingsOf s i ++ rest.bind (postingsOf s)
        from rfl,
      List.foldl_append]
    exact ih (bumpToken s g st i)

theorem occs_eq_count_bind (s : LoadedState) (idxs : List Nat) (x : Nat) :
    occs s idxs x = (idxs.bind (postingsOf s)).count ((x : Nat) : Int) := by
  induction idxs with
  | nil => rfl
  | cons i rest ih =>
    rw [show (i :: rest).bind (postingsOf s) = postingsOf s i ++ rest.bind (postingsOf s)
        from rfl,
      List.count_append]
    unfold occs at ih ⊢
    rw [List.map_cons, List.sum_cons, ih]

theorem bumpTokens_fst_apply (s : LoadedState) (g : Nat → Bool) (idxs : List Nat)
    (st : (Nat → Nat) × List Nat) (x : Nat) :
    (bumpTokens s g idxs st).1 x =
      if g x = true ∧ x < s.totalCount ∧ 1 ≤ occs s idxs x then
        (st.1 x + occs s idxs x) % 65536
      else st.1 x := by
  rw [bumpTokens_eq_fold, bumpFold_fst_apply, occs_eq_count_bind]

theorem bumpTokens_P (s : LoadedState) (g : Nat → Bool) (idxs : List Nat)
    (st : (Nat → Nat) × List Nat) (hP : ∀ x, st.1 x ≠ 0 → x ∈ st.2) :
    ∀ x, (bumpTokens s g idxs st).1 x ≠ 0 → x ∈ (bumpTokens s g idxs st).2 := by
  rw [bumpTokens_eq_fold]
  exact bumpFold_P _ _ _ _ hP

theorem bumpTokens_snd_mono (s : LoadedState) (g : Nat → Bool) (idxs : List Nat)
    (st : (Nat → Nat) × List Nat) {y : Nat} (hy : y ∈ st.2) :
    y ∈ (bumpTokens s g idxs st).2 := by
  rw [bumpTokens_eq_fold]
  exact bumpFold_snd_mono _ _ _ _ hy

theorem bumpTokens_snd_sub (s : LoadedState) (g : Nat → Bool) (idxs : List Nat)
    (st : (Nat → Nat) × List Nat) {y : Nat}
    (hy : y ∈ (bumpTokens s g idxs st).2) :
    y ∈ st.2 ∨ (1 ≤ occs s idxs y ∧ y < s.totalCount ∧ g y = true) := by
  rw [bumpTokens_eq_fold] at hy
  rw [occs_eq_count_bind]
  exact bumpFold_snd_sub _ _ _ _ hy

/-- The combined characterization of one term's bump phase, starting
from zero counters and an empty touched list: the touched docs reaching
the clamped threshold are exactly the `TermMatchT` docs, the counters
hold the (wrapped) occurrence totals gated by the guard, and every
nonzero counter is recorded in the touched list. -/
theorem bumpTouched_match (s : LoadedState) (g : Nat → Bool) (tt : List (List Nat))
    (h2 : foundIdxs s.dict tt ≠ [])
    (st : (Nat → Nat) × List Nat) (hc : ∀ y, st.1 y = 0) (ht : st.2 = []) (x : Nat) :
    ((x ∈ (bumpTokens s g (sortByDf s.dict (foundIdxs s.dict tt)) st).2 ∧
        min (max 1 (ceil06 tt.length)) (foundIdxs s.dict tt).length ≤
          (bumpTokens s g (sortByDf s.dict (foundIdxs s.dict tt)) st).1 x) ↔
      TermMatchT s g tt x) ∧
    ((bumpTokens s g (sortByDf s.dict (foundIdxs s.dict tt)) st).1 x =
      if g x = true ∧ x < s.totalCount ∧ 1 ≤ occs s (foundIdxs s.dict tt) x then
        occs s (foundIdxs s.dict tt) x % 65536
      else 0) ∧
    ((bumpTokens s g (sortByDf s.dict (foundIdxs s.dict tt)) st).1 x ≠ 0 →
      x ∈ (bumpTokens s g (sortByDf s.dict (foundIdxs s.dict tt)) st).2) := by
  have hperm : (sortByDf s.dict (foundIdxs s.dict tt)).Perm (foundIdxs s.dict tt) :=
    List.perm_insertionSort _ _
  have hocc : occs s (sortByDf s.dict (foundIdxs s.dict tt)) x =
      occs s (foundIdxs s.dict tt) x := occs_perm s hperm x
  have hfst : (bumpTokens s g (sortByDf s.dict (foundIdxs s.dict tt)) st).1 x =
      if g x = true ∧ x < s.totalCount ∧ 1 ≤ occs s (foundIdxs s.dict tt) x then
        occs s (foundIdxs s.dict tt) x % 65536
      else 0 := by
    rw [bumpTokens_fst_apply, hocc, hc]
    split <;> simp
  have hP0 : ∀ y, st.1 y ≠ 0 → y ∈ st.2 := fun y hy => absurd (hc y) hy
  have hm1 : 1 ≤ min (max 1 (ceil06 tt.length)) (foundIdxs s.dict tt).length := by
    have : 1 ≤ (foundIdxs s.dict tt).length :=
      List.length_pos.2 h2
    omega
  refine ⟨?_, hfst, fun hne => bumpTokens_P s g _ st hP0 x hne⟩
  constructor
  · rintro ⟨hmem, hge⟩
    rcases bumpTokens_snd_sub s g _ st hmem with hy | ⟨hocc1, hxN, hgx⟩
    · rw [ht] at hy
      cases hy
    · rw [hocc] at hocc1
      refine ⟨h2, hgx, hxN, ?_⟩
      rw [hfst, if_pos ⟨hgx, hxN, hocc1⟩] at hge
      exact hge
  · rintro ⟨-, hgx, hxN, hth⟩
    have hocc1 : 1 ≤ occs s (foundIdxs s.dict tt) x := by
      by_contra hlt
      have h0 : occs s (foundIdxs s.dict tt) x = 0 := by omega
      rw [h0] at hth
      have h1le : (1 : Nat) ≤ 0 % 65536 := le_trans hm1 hth
      simp at h1le
    have hval : (bumpTokens s g (sortByDf s.dict (foundIdxs s.dict tt)) st).1 x =
        occs s (foundIdxs s.dict tt) x % 65536 := by
      rw [hfst, if_pos ⟨hgx, hxN, hocc1⟩]
    refine ⟨?_, by rw [hval]; exact hth⟩
    apply bumpTokens_P s g _ st hP0 x
    rw [hval]
    omega

/-! ### The exclude-mask marking loop -/

theorem exclMarkFold_fst_apply (m : Nat) (l : List Nat) :
    ∀ (st : (Nat → Nat) × (Nat → Bool)) (x : Nat),
      (l.foldl (exclMark m) st).1 x = if x ∈ l then 0 else st.1 x := by
  induction l with
  | nil => intro st x; simp
  | cons d rest ih =>
    intro st x
    rw [List.foldl_cons, ih]
    by_cases h1 : x ∈ rest <;> by_cases h2 : x = d <;>
      simp [exclMark, h1, h2, List.mem_cons]

theorem exclMarkFold_snd_apply (m : Nat) (hm : 1 ≤ m) (l : List Nat) :
    ∀ (st : (Nat → Nat) × (Nat → Bool)) (x : Nat),
      ((l.foldl (exclMark m) st).2 x = true ↔
        (st.2 x = true ∨ (x ∈ l ∧ m ≤ st.1 x))) := by
  induction l with
  | nil => intro st x; simp
  | cons d rest ih =>
    intro st x
    rw [List.foldl_cons, ih]
    show ((exclMark m st d).2 x = true ∨ (x ∈ rest ∧ m ≤ (exclMark m st d).1 x)) ↔ _
    by_cases h2 : x = d
    · subst h2
      have hcnt : (exclMark m st x).1 x = 0 := by
        unfold exclMark
        simp
      rw [hcnt]
      have hmask : ((exclMark m st x).2 x = true) ↔ (st.2 x = true ∨ m ≤ st.1 x) := by
        unfold exclMark
        by_cases h3 : m ≤ st.1 x <;> simp [h3]
      rw [hmask]
      constructor
      · rintro (h | h)
        · rcases h with h | h
          · exact Or.inl h
          · exact Or.inr ⟨List.mem_cons_self _ _, h⟩
        · omega
      · rintro (h | ⟨-, h⟩)
        · exact Or.inl (Or.inl h)
        · exact Or.inl (Or.inr h)
    · have hcnt : (exclMark m st d).1 x = st.1 x := by
        unfold exclMark
        simp [h2]
      have hmask : (exclMark m st d).2 x = st.2 x := by
        unfold exclMark
        by_cases h3 : m ≤ st.1 d <;> simp [h3, h2]
      rw [hcnt, hmask, List.mem_cons]
      constructor
      · rintro (h | ⟨h4, h5⟩)
        · exact Or.inl h
        · exact Or.inr ⟨Or.inr h4, h5⟩
      · rintro (h | ⟨h4 | h4, h5⟩)
        · exact Or.inl h
        · exact absurd h4 h2
        · exact Or.inr ⟨h4, h5⟩

/-- One exclude term leaves the shared counters zeroed and adds exactly
its `TermMatchT` docs (under the not-yet-masked guard) to the mask. -/
theorem exclTermStep_spec (s : LoadedState) (term : List Nat)
    (st : (Nat → Nat) × (Nat → Bool)) (hc : ∀ x, st.1 x = 0) :
    (∀ x, (exclTermStep s st term).1 x = 0) ∧
    (∀ x, ((exclTermStep s st term).2 x = true ↔
      (st.2 x = true ∨
        TermMatchT s (fun d => !st.2 d) (uniqNgrams term s.dict.n) x))) := by
  unfold exclTermStep
  by_cases h1 : (uniqNgrams term s.dict.n).isEmpty
  · rw [if_pos h1]
    have htt : uniqNgrams term s.dict.n = [] := List.isEmpty_iff.1 h1
    refine ⟨hc, fun x => ?_⟩
    rw [htt]
    simp [TermMatchT, foundIdxs]
  · rw [if_neg h1]
    by_cases h2 : (foundIdxs s.dict (uniqNgrams term s.dict.n)).isEmpty
    · rw [if_pos h2]
      have hidx : foundIdxs s.dict (uniqNgrams term s.dict.n) = [] :=
        List.isEmpty_iff.1 h2
      refine ⟨hc, fun x => ?_⟩
      simp [TermMatchT, hidx]
    · rw [if_neg h2]
      have h2' : foundIdxs s.dict (uniqNgrams term s.dict.n) ≠ [] :=
        fun h => h2 (by simp [h])
      have hm1 : 1 ≤ min (max 1 (ceil06 (uniqNgrams term s.dict.n).length))
          (foundIdxs s.dict (uniqNgrams term s.dict.n)).length := by
        have hlen := List.length_pos.2 h2'
        omega
      constructor
      · intro x
        rw [exclMarkFold_fst_apply]
        split
        · rfl
        · rcases bumpTouched_match s (fun d => !st.2 d) (uniqNgrams term s.dict.n) h2'
            (st.1, []) hc rfl x with ⟨-, -, hPt⟩
          rename_i hnmem
          by_contra hne
          exact hnmem (hPt hne)
      · intro x
        rw [exclMarkFold_snd_apply _ hm1]
        dsimp only
        rcases bumpTouched_match s (fun d => !st.2 d) (uniqNgrams term s.dict.n) h2'
          (st.1, []) hc rfl x with ⟨hiff, -, -⟩
        rw [hiff]

/-- `buildExcludeMask` zeroes the shared counters back (given they start
zero). -/
theorem buildExcludeMask_counts (s : LoadedState) (excl : List (List Nat))
    (hc : s.counts = fun _ => 0) :
    ∀ x, (buildExcludeMask s excl).2 x = 0 := by
  unfold buildExcludeMask
  suffices h : ∀ (st : (Nat → Nat) × (Nat → Bool)), (∀ x, st.1 x = 0) →
      ∀ x, (excl.foldl (exclTermStep s) st).1 x = 0 by
    intro x
    exact h (s.counts, fun _ => false) (fun y => by rw [hc]) x
  induction excl with
  | nil => intro st hst x; exact hst x
  | cons t rest ih =>
    intro st hst x
    rw [List.foldl_cons]
    exact ih _ (exclTermStep_spec s t st hst).1 x

/-- The mask built from a single exclude term marks exactly its
`TermMatchT` docs. -/
theorem buildExcludeMask_single (s : LoadedState) (term : List Nat)
    (hc : s.counts = fun _ => 0) (x : Nat) :
    ((buildExcludeMask s [term]).1 x = true ↔
      TermMatchT s (fun _ => true) (uniqNgrams term s.dict.n) x) := by
  unfold buildExcludeMask
  rw [List.foldl_cons, List.foldl_nil]
  rcases exclTermStep_spec s term (s.counts, fun _ => false)
    (fun y => by rw [hc]) with ⟨-, hmask⟩
  rw [hmask x]
  simp

/-! ### The multi-term collect loop -/

theorem termCollect_eq_hit (isRel : Bool) (k minHit : Nat)
    (st : (Nat → Nat) × (Nat → ℚ) × List Nat) (d : Nat) (h : minHit ≤ st.1 d) :
    termCollect isRel k minHit st d =
      ((fun x => if x = d then 0 else st.1 x),
       (fun x => if x = d then (if isRel then st.2.1 d + (st.1 d : ℚ) / (k : ℚ) else 1)
                 else st.2.1 x),
       if st.2.1 d = 0 then st.2.2 ++ [d] else st.2.2) := by
  simp only [termCollect]
  rw [if_pos h]

theorem termCollect_eq_miss (isRel : Bool) (k minHit : Nat)
    (st : (Nat → Nat) × (Nat → ℚ) × List Nat) (d : Nat) (h : ¬minHit ≤ st.1 d) :
    termCollect isRel k minHit st d =
      ((fun x => if x = d then 0 else st.1 x), st.2.1, st.2.2) := by
  simp only [termCollect]
  rw [if_neg h]

theorem termCollectFold_spec (isRel : Bool) (k minHit : Nat) (hk : 1 ≤ k)
    (hm : 1 ≤ minHit) (l : List Nat) :
    ∀ (c : Nat → Nat) (sc : Nat → ℚ) (cd : List Nat),
      (∀ x, 0 ≤ sc x ∧ (sc x ≠ 0 ↔ x ∈ cd)) →
      (∀ x, (l.foldl (termCollect isRel k minHit) (c, sc, cd)).1 x =
        if x ∈ l then 0 else c x) ∧
      (∀ x, 0 ≤ (l.foldl (termCollect isRel k minHit) (c, sc, cd)).2.1 x ∧
        ((l.foldl (termCollect isRel k minHit) (c, sc, cd)).2.1 x ≠ 0 ↔
          x ∈ (l.foldl (termCollect isRel k minHit) (c, sc, cd)).2.2)) ∧
      (∀ x, x ∈ (l.foldl (termCollect isRel k minHit) (c, sc, cd)).2.2 ↔
        (x ∈ cd ∨ (x ∈ l ∧ minHit ≤ c x))) := by
  induction l with
  | nil =>
    intro c sc cd hQ
    exact ⟨fun x => by simp, fun x => ⟨(hQ x).1, (hQ x).2⟩, fun x => by simp⟩
  | cons d rest ih =>
    intro c sc cd hQ
    rw [List.foldl_cons]
    have hz : ¬minHit ≤ (0 : Nat) := by omega
    by_cases hhit : minHit ≤ c d
    · rw [termCollect_eq_hit isRel k minHit (c, sc, cd) d hhit]
      have hvpos : (0 : ℚ) <
          (if isRel then sc d + ((c d : Nat) : ℚ) / ((k : Nat) : ℚ) else 1) := by
        cases isRel with
        | false => norm_num
        | true =>
          rw [if_pos rfl]
          have h1 : (0 : ℚ) < ((c d : Nat) : ℚ) / ((k : Nat) : ℚ) := by
            apply div_pos
            · exact_mod_cast show 0 < c d by omega
            · exact_mod_cast show 0 < k by omega
          have h2 := (hQ d).1
          linarith
      have hcd1 : ∀ x, (x ∈ (if sc d = 0 then cd ++ [d] else cd) ↔ (x ∈ cd ∨ x = d)) := by
        intro x
        by_cases h0 : sc d = 0
        · rw [if_pos h0]
          simp
        · rw [if_neg h0]
          constructor
          · exact Or.inl
          · rintro (h | rfl)
            · exact h
            · exact ((hQ x).2).1 h0
      have hQ1 : ∀ x,
          0 ≤ (fun y => if y = d then
              (if isRel then sc d + ((c d : Nat) : ℚ) / ((k : Nat) : ℚ) else 1)
            else sc y) x ∧
          ((fun y => if y = d then
              (if isRel then sc d + ((c d : Nat) : ℚ) / ((k : Nat) : ℚ) else 1)
            else sc y) x ≠ 0 ↔
            x ∈ (if sc d = 0 then cd ++ [d] else cd)) := by
        intro x
        show 0 ≤ (if x = d then
            (if isRel then sc d + ((c d : Nat) : ℚ) / ((k : Nat) : ℚ) else 1)
          else sc x) ∧
          ((if x = d then
            (if isRel then sc d + ((c d : Nat) : ℚ) / ((k : Nat) : ℚ) else 1)
          else sc x) ≠ 0 ↔ x ∈ (if sc d = 0 then cd ++ [d] else cd))
        by_cases hxd : x = d
        · rw [if_pos hxd, hcd1]
          exact ⟨le_of_lt hvpos, fun _ => Or.inr hxd, fun _ => hvpos.ne.symm⟩
        · rw [if_neg hxd, hcd1]
          refine ⟨(hQ x).1, ?_, ?_⟩
          · intro h
            exact Or.inl (((hQ x).2).1 h)
          · rintro (h | h)
            · exact ((hQ x).2).2 h
            · exact absurd h hxd
      rcases ih _ _ _ hQ1 with ⟨ih1, ih2, ih3⟩
      refine ⟨fun x => ?_, ih2, fun x => ?_⟩
      · rw [ih1]
        by_cases hxd : x = d
        · rw [if_pos (show x ∈ d :: rest from by rw [hxd]; exact List.mem_cons_self d rest)]
          by_cases hxr : x ∈ rest
          · rw [if_pos hxr]
          · rw [if_neg hxr]
            exact if_pos hxd
        · by_cases hxr : x ∈ rest
          · rw [if_pos hxr, if_pos (List.mem_cons_of_mem d hxr)]
          · rw [if_neg hxr,
              if_neg (show ¬x ∈ d :: rest from by simp [List.mem_cons, hxd, hxr])]
            exact if_neg hxd
      · rw [ih3, hcd1]
        by_cases hxd : x = d
        · have hcx : (if x = d then (0 : Nat) else c x) = 0 := if_pos hxd
          rw [hcx]
          have hxmem : x ∈ d :: rest := by rw [hxd]; exact List.mem_cons_self d rest
          have hhx : minHit ≤ c x := by rw [hxd]; exact hhit
          constructor
          · rintro ((h | -) | ⟨-, h⟩)
            · exact Or.inl h
            · exact Or.inr ⟨hxmem, hhx⟩
            · exact absurd h hz
          · rintro (h | -)
            · exact Or.inl (Or.inl h)
            · exact Or.inl (Or.inr hxd)
        · have hcx : (if x = d then (0 : Nat) else c x) = c x := if_neg hxd
          rw [hcx]
          simp only [List.mem_cons]
          constructor
          · rintro ((h | h) | ⟨h1, h2⟩)
            · exact Or.inl h
            · exact absurd h hxd
            · exact Or.inr ⟨Or.inr h1, h2⟩
          · rintro (h | ⟨h1 | h1, h2⟩)
            · exact Or.inl (Or.inl h)
            · exact absurd h1 hxd
            · exact Or.inr ⟨h1, h2⟩
    · rw [termCollect_eq_miss isRel k minHit (c, sc, cd) d hhit]
      rcases ih _ _ _ hQ with ⟨ih1, ih2, ih3⟩
      refine ⟨fun x => ?_, ih2, fun x => ?_⟩
      · rw [ih1]
        by_cases hxd : x = d
        · rw [if_pos (show x ∈ d :: rest from by rw [hxd]; exact List.mem_cons_self d rest)]
          by_cases hxr : x ∈ rest
          · rw [if_pos hxr]
          · rw [if_neg hxr]
            exact if_pos hxd
        · by_cases hxr : x ∈ rest
          · rw [if_pos hxr, if_pos (List.mem_cons_of_mem d hxr)]
          · rw [if_neg hxr,
              if_neg (show ¬x ∈ d :: rest from by simp [List.mem_cons, hxd, hxr])]
            exact if_neg hxd
      · rw [ih3]
        by_cases hxd : x = d
        · have hcx : (if x = d then (0 : Nat) else c x) = 0 := if_pos hxd
          rw [hcx]
          constructor
          · rintro (h | ⟨-, h⟩)
            · exact Or.inl h
            · exact absurd h hz
          · rintro (h | ⟨-, h2⟩)
            · exact Or.inl h
            · have hcd : minHit ≤ c d := by rw [← hxd]; exact h2
              exact absurd hcd hhit
        · have hcx : (if x = d then (0 : Nat) else c x) = c x := if_neg hxd
          rw [hcx]
          simp only [List.mem_cons]
          constructor
          · rintro (h | ⟨h1, h2⟩)
            · exact Or.inl h
            · exact Or.inr ⟨Or.inr h1, h2⟩
          · rintro (h | ⟨h1 | h1, h2⟩)
            · exact Or.inl h
            · exact absurd h1 hxd
            · exact Or.inr ⟨h1, h2⟩

theorem includeTermStep_eq_empty1 (s : LoadedState) (g : Nat → Bool) (isRel : Bool)
    (term : List Nat) (st : (Nat → Nat) × (Nat → ℚ) × List Nat)
    (h1 : (uniqNgrams term s.dict.n).isEmpty = true) :
    includeTermStep s g isRel st term = st := by
  unfold includeTermStep
  rw [if_pos h1]

theorem includeTermStep_eq_empty2 (s : LoadedState) (g : Nat → Bool) (isRel : Bool)
    (term : List Nat) (st : (Nat → Nat) × (Nat → ℚ) × List Nat)
    (h1 : ¬(uniqNgrams term s.dict.n).isEmpty = true)
    (h2 : (foundIdxs s.dict (uniqNgrams term s.dict.n)).isEmpty = true) :
    includeTermStep s g isRel st term = st := by
  unfold includeTermStep
  rw [if_neg h1, if_pos h2]

theorem includeTermStep_eq_main (s : LoadedState) (g : Nat → Bool) (isRel : Bool)
    (term : List Nat) (st : (Nat → Nat) × (Nat → ℚ) × List Nat)
    (h1 : ¬(uniqNgrams term s.dict.n).isEmpty = true)
    (h2 : ¬(foundIdxs s.dict (uniqNgrams term s.dict.n)).isEmpty = true) :
    includeTermStep s g isRel st term =
      (bumpTokens s g (sortByDf s.dict (foundIdxs s.dict (uniqNgrams term s.dict.n)))
          (st.1, [])).2.foldl
        (termCollect isRel (uniqNgrams term s.dict.n).length
          (min (max 1 (ceil06 (uniqNgrams term s.dict.n).length))
            (foundIdxs s.dict (uniqNgrams term s.dict.n)).length))
        ((bumpTokens s g (sortByDf s.dict (foundIdxs s.dict (uniqNgrams term s.dict.n)))
          (st.1, [])).1, st.2.1, st.2.2) := by
  unfold includeTermStep
  rw [if_neg h1, if_neg h2]

/-- One include term of the multi-term path leaves the counters zeroed,
keeps the score/candidate invariant, and adds exactly its `TermMatchT`
docs to the candidate list. -/
theorem includeTermStep_spec (s : LoadedState) (g : Nat → Bool) (isRel : Bool)
    (term : List Nat) (st : (Nat → Nat) × (Nat → ℚ) × List Nat)
    (hc : ∀ x, st.1 x = 0)
    (hQ : ∀ x, 0 ≤ st.2.1 x ∧ (st.2.1 x ≠ 0 ↔ x ∈ st.2.2)) :
    (∀ x, (includeTermStep s g isRel st term).1 x = 0) ∧
    (∀ x, 0 ≤ (includeTermStep s g isRel st term).2.1 x ∧
      ((includeTermStep s g isRel st term).2.1 x ≠ 0 ↔
        x ∈ (includeTermStep s g isRel st term).2.2)) ∧
    (∀ x, x ∈ (includeTermStep s g isRel st term).2.2 ↔
      (x ∈ st.2.2 ∨ TermMatchT s g (uniqNgrams term s.dict.n) x)) := by
  by_cases h1 : (uniqNgrams term s.dict.n).isEmpty
  · rw [includeTermStep_eq_empty1 s g isRel term st h1]
    have htt : uniqNgrams term s.dict.n = [] := List.isEmpty_iff.1 h1
    refine ⟨hc, fun x => hQ x, fun x => ?_⟩
    rw [htt]
    simp [TermMatchT, foundIdxs]
  · by_cases h2 : (foundIdxs s.dict (uniqNgrams term s.dict.n)).isEmpty
    · rw [includeTermStep_eq_empty2 s g isRel term st h1 h2]
      have hidx : foundIdxs s.dict (uniqNgrams term s.dict.n) = [] :=
        List.isEmpty_iff.1 h2
      refine ⟨hc, fun x => hQ x, fun x => ?_⟩
      simp [TermMatchT, hidx]
    · rw [includeTermStep_eq_main s g isRel term st h1 h2]
      have h2' : foundIdxs s.dict (uniqNgrams term s.dict.n) ≠ [] :=
        fun h => h2 (by simp [h])
      have hk : 1 ≤ (uniqNgrams term s.dict.n).length := by
        cases h : uniqNgrams term s.dict.n with
        | nil => rw [h] at h1; simp at h1
        | cons a l => simp [h]
      have hm1 : 1 ≤ min (max 1 (ceil06 (uniqNgrams term s.dict.n).length))
          (foundIdxs s.dict (uniqNgrams term s.dict.n)).length := by
        have hlen := List.length_pos.2 h2'
        omega
      rcases termCollectFold_spec isRel (uniqNgrams term s.dict.n).length
          (min (max 1 (ceil06 (uniqNgrams term s.dict.n).length))
            (foundIdxs s.dict (uniqNgrams term s.dict.n)).length) hk hm1
          (bumpTokens s g (sortByDf s.dict (foundIdxs s.dict (uniqNgrams term s.dict.n)))
            (st.1, [])).2
          (bumpTokens s g (sortByDf s.dict (foundIdxs s.dict (uniqNgrams term s.dict.n)))
            (st.1, [])).1 st.2.1 st.2.2 hQ with ⟨cc1, cc2, cc3⟩
      refine ⟨fun x => ?_, cc2, fun x => ?_⟩
      · rw [cc1]
        split
        · rfl
        · rename_i hnmem
          by_contra hne
          exact hnmem (bumpTokens_P s g _ (st.1, []) (fun y hy => absurd (hc y) hy) x hne)
      · rw [cc3]
        rcases bumpTouched_match s g (uniqNgrams term s.dict.n) h2' (st.1, [])
          (fun y => hc y) rfl x with ⟨hiff, -, -⟩
        rw [hiff]

/-- Folding the multi-term loop over all include terms: counters return
to zero, the score/candidate invariant holds, and the candidate list
collects exactly the docs matching at least one include term. -/
theorem includeFold_spec (s : LoadedState) (g : Nat → Bool) (isRel : Bool)
    (terms : List (List Nat)) :
    ∀ (st : (Nat → Nat) × (Nat → ℚ) × List Nat),
      (∀ x, st.1 x = 0) →
      (∀ x, 0 ≤ st.2.1 x ∧ (st.2.1 x ≠ 0 ↔ x ∈ st.2.2)) →
      (∀ x, (terms.foldl (includeTermStep s g isRel) st).1 x = 0) ∧
      (∀ x, 0 ≤ (terms.foldl (includeTermStep s g isRel) st).2.1 x ∧
        ((terms.foldl (includeTermStep s g isRel) st).2.1 x ≠ 0 ↔
          x ∈ (terms.foldl (includeTermStep s g isRel) st).2.2)) ∧
      (∀ x, x ∈ (terms.foldl (includeTermStep s g isRel) st).2.2 ↔
        (x ∈ st.2.2 ∨ ∃ t ∈ terms, TermMatchT s g (uniqNgrams t s.dict.n) x)) := by
  induction terms with
  | nil =>
    intro st hc hQ
    exact ⟨hc, hQ, fun x => by simp⟩
  | cons t rest ih =>
    intro st hc hQ
    rw [List.foldl_cons]
    rcases includeTermStep_spec s g isRel t st hc hQ with ⟨s1, s2, s3⟩
    rcases ih (includeTermStep s g isRel st t) s1 s2 with ⟨i1, i2, i3⟩
    refine ⟨i1, i2, fun x => ?_⟩
    rw [i3, s3]
    simp only [List.mem_cons]
    constructor
    · rintro ((h | h) | ⟨t2, ht2, hm2⟩)
      · exact Or.inl h
      · exact Or.inr ⟨t, Or.inl rfl, h⟩
      · exact Or.inr ⟨t2, Or.inr ht2, hm2⟩
    · rintro (h | ⟨t2, ht2 | ht2, hm2⟩)
      · exact Or.inl (Or.inl h)
      · exact Or.inl (Or.inr (ht2 ▸ hm2))
      · exact Or.inr ⟨t2, ht2, hm2⟩

/-! ### The single-term relevance collect loop -/

theorem singleCollect_eq_miss (s : LoadedState) (qNorm : List Nat) (kq minHit : Nat)
    (cnt : Nat → Nat) (st : (Nat → ℚ) × List Nat) (d : Nat) (h : cnt d < minHit) :
    singleCollect s qNorm kq minHit cnt st d = st := by
  unfold singleCollect
  rw [if_pos h]

theorem singleCollect_eq_hit (s : LoadedState) (qNorm : List Nat) (kq minHit : Nat)
    (cnt : Nat → Nat) (st : (Nat → ℚ) × List Nat) (d : Nat) (h : ¬cnt d < minHit) :
    singleCollect s qNorm kq minHit cnt st d =
      ((fun x => if x = d then
          (((cnt d : Nat) : ℚ) / ((kq : Nat) : ℚ) +
            (if containsSub (normText (s.titles.getD d [])) qNorm then (7 : ℚ)/5 else 0) +
            (if containsSub (normText (s.aliasesTexts.getD d [])) qNorm then (3 : ℚ)/5 else 0) +
            (if containsSub (normText (s.authorsTexts.getD d [])) qNorm then (2 : ℚ)/5 else 0))
        else st.1 x), st.2 ++ [d]) := by
  unfold singleCollect
  rw [if_neg h]

theorem singleCollectFold_fst (s : LoadedState) (qNorm : List Nat) (kq minHit : Nat)
    (cnt : Nat → Nat) (l : List Nat) :
    ∀ (st : (Nat → ℚ) × List Nat) (x : Nat), x ∉ l →
      (l.foldl (singleCollect s qNorm kq minHit cnt) st).1 x = st.1 x := by
  induction l with
  | nil => intro st x _; rfl
  | cons d rest ih =>
    intro st x hx
    rw [List.foldl_cons]
    have hxd : x ≠ d := fun h => hx (h ▸ List.mem_cons_self d rest)
    have hxr : x ∉ rest := fun h => hx (List.mem_cons_of_mem d h)
    rw [ih _ x hxr]
    by_cases h : cnt d < minHit
    · rw [singleCollect_eq_miss s qNorm kq minHit cnt st d h]
    · rw [singleCollect_eq_hit s qNorm kq minHit cnt st d h]
      exact if_neg hxd

theorem singleCollectFold_snd (s : LoadedState) (qNorm : List Nat) (kq minHit : Nat)
    (cnt : Nat → Nat) (l : List Nat) :
    ∀ (st : (Nat → ℚ) × List Nat) (x : Nat),
      (x ∈ (l.foldl (singleCollect s qNorm kq minHit cnt) st).2 ↔
        (x ∈ st.2 ∨ (x ∈ l ∧ minHit ≤ cnt x))) := by
  induction l with
  | nil => intro st x; simp
  | cons d rest ih =>
    intro st x
    rw [List.foldl_cons, ih]
    by_cases h : cnt d < minHit
    · rw [singleCollect_eq_miss s qNorm kq minHit cnt st d h]
      simp only [List.mem_cons]
      constructor
      · rintro (h2 | ⟨h2, h3⟩)
        · exact Or.inl h2
        · exact Or.inr ⟨Or.inr h2, h3⟩
      · rintro (h2 | ⟨h2 | h2, h3⟩)
        · exact Or.inl h2
        · rw [h2] at h3
          omega
        · exact Or.inr ⟨h2, h3⟩
    · rw [singleCollect_eq_hit s qNorm kq minHit cnt st d h]
      simp only [List.mem_cons, List.mem_append]
      constructor
      · rintro ((h2 | h2 | h2) | ⟨h2, h3⟩)
        · exact Or.inl h2
        · exact Or.inr ⟨Or.inl h2, by rw [h2]; omega⟩
        · exact absurd h2 (List.not_mem_nil x)
        · exact Or.inr ⟨Or.inr h2, h3⟩
      · rintro (h2 | ⟨h2 | h2, h3⟩)
        · exact Or.inl (Or.inl h2)
        · exact Or.inl (Or.inr (Or.inl h2))
        · exact Or.inr ⟨h2, h3⟩

theorem bonusLoop_not_mem (s : LoadedState) (terms : List (List Nat)) :
    ∀ (l : List Nat) (sc : Nat → ℚ) (x : Nat), x ∉ l →
      bonusLoop s terms sc l x = sc x := by
  intro l
  induction l with
  | nil => intro sc x _; rfl
  | cons d rest ih =>
    intro sc x hx
    have hxd : x ≠ d := fun h => hx (h ▸ List.mem_cons_self d rest)
    have hxr : x ∉ rest := fun h => hx (List.mem_cons_of_mem d h)
    show bonusLoop s terms _ rest x = sc x
    rw [ih _ x hxr]
    exact if_neg hxd

/-! ## State restoration: every completed resolution leaves the scratch
arrays as it found them -/

theorem counts0Of_zero (s : LoadedState) (msg : SearchMessage)
    (hc : s.counts = fun _ => 0) : ∀ x, counts0Of s msg x = 0 := by
  intro x
  unfold counts0Of
  split
  · rw [hc]
  · exact buildExcludeMask_counts s _ hc x

theorem resolvePathA_state (s : LoadedState) (msg : SearchMessage) :
    (resolvePathA s msg).2 = s := by
  unfold resolvePathA
  split <;> rfl

theorem resolvePathB_state (s : LoadedState) (msg : SearchMessage)
    (hc : s.counts = fun _ => 0) : (resolvePathB s msg).2 = s := by
  have h1 : (buildExcludeMask s (parseQuery msg.q).excludeTerms).2 = s.counts := by
    funext x
    rw [buildExcludeMask_counts s _ hc x, hc]
  show {s with counts := (buildExcludeMask s (parseQuery msg.q).excludeTerms).2} = s
  rw [h1]

theorem resolveCandidates_state (s : LoadedState) (msg : SearchMessage)
    (r : (Nat → Nat) × (Nat → ℚ) × List Nat)
    (hc : s.counts = fun _ => 0) (hs : s.scores = fun _ => 0)
    (h1 : ∀ x, r.1 x = 0)
    (hQ : ∀ x, 0 ≤ r.2.1 x ∧ (r.2.1 x ≠ 0 ↔ x ∈ r.2.2)) :
    (resolveCandidates s msg r).2 = s := by
  have hr1 : r.1 = s.counts := by
    funext x
    rw [h1 x, hc]
  unfold resolveCandidates
  by_cases hemp : r.2.2.isEmpty
  · rw [if_pos hemp]
    have hr2 : r.2.1 = s.scores := by
      funext x
      rw [hs]
      by_contra hne
      have h2 := ((hQ x).2).1 hne
      rw [List.isEmpty_iff.1 hemp] at h2
      cases h2
    dsimp only
    rw [hr1, hr2]
  · rw [if_neg hemp]
    by_cases hrel : (msg.sort == SortMode.relevance) = true
    · rw [if_pos hrel]
      have h2 : resetList (bonusLoop s (parseQuery msg.q).includeTerms r.2.1 r.2.2)
          (List.insertionSort (rankRel (bonusLoop s (parseQuery msg.q).includeTerms
            r.2.1 r.2.2) s.metaIds) r.2.2) = s.scores := by
        funext x
        rw [resetList_apply, hs]
        split
        · rfl
        · rename_i hn
          rw [List.mem_insertionSort] at hn
          rw [bonusLoop_not_mem s _ _ _ _ hn]
          by_contra hne
          exact hn (((hQ x).2).1 hne)
      dsimp only
      rw [hr1, h2]
    · rw [if_neg hrel]
      have h2 : resetList r.2.1 (List.insertionSort
          (fun a b => if msg.sort == SortMode.id_asc then a ≤ b else b ≤ a) r.2.2) =
          s.scores := by
        funext x
        rw [resetList_apply]
        simp only [hs]
        by_cases hm : x ∈ List.insertionSort
            (fun a b => if msg.sort == SortMode.id_asc then a ≤ b else b ≤ a) r.2.2
        · rw [if_pos hm]
        · rw [if_neg hm]
          rw [List.mem_insertionSort] at hm
          by_contra hne
          exact hm (((hQ x).2).1 hne)
      dsimp only
      rw [hr1, h2]

theorem resolvePathC_state (s : LoadedState) (msg : SearchMessage)
    (hc : s.counts = fun _ => 0) (hs : s.scores = fun _ => 0) :
    (resolvePathC s msg).2 = s := by
  have hQ0 : ∀ x, 0 ≤ s.scores x ∧ (s.scores x ≠ 0 ↔ x ∈ ([] : List Nat)) := by
    intro x
    rw [hs]
    simp
  rcases includeFold_spec s (guardOf s msg) (msg.sort == SortMode.relevance)
    (parseQuery msg.q).includeTerms (counts0Of s msg, s.scores, [])
    (counts0Of_zero s msg hc) hQ0 with ⟨i1, i2, i3⟩
  exact resolveCandidates_state s msg _ hc hs i1 i2

theorem resolveSingle_state (s : LoadedState) (msg : SearchMessage)
    (bumped : (Nat → Nat) × List Nat)
    (hc : s.counts = fun _ => 0) (hs : s.scores = fun _ => 0) (ht : s.touched = [])
    (hP : ∀ x, bumped.1 x ≠ 0 → x ∈ bumped.2) :
    (resolveSingle s msg bumped).2 = s := by
  have hcnt : resetList bumped.1 bumped.2 = s.counts := by
    funext x
    rw [resetList_apply, hc]
    split
    · rfl
    · rename_i hn
      by_contra hne
      exact hn (hP x hne)
  unfold resolveSingle
  dsimp only
  by_cases hid : (msg.sort == SortMode.id_desc || msg.sort == SortMode.id_asc) = true
  · rw [if_pos hid]
    have hsc : resetList s.scores bumped.2 = s.scores := by
      funext x
      rw [resetList_apply, hs]
      split <;> rfl
    dsimp only
    rw [hcnt, hsc, ← ht]
  · rw [if_neg hid]
    have hsc : resetList (bumped.2.foldl
        (singleCollect s (qNormOf msg) (queryTokensOf s msg).length
          (min (max 1 (ceil06 (queryTokensOf s msg).length))
            (foundIdxs s.dict (queryTokensOf s msg)).length) bumped.1)
        (s.scores, [])).1 bumped.2 = s.scores := by
      funext x
      rw [resetList_apply]
      by_cases hm : x ∈ bumped.2
      · rw [if_pos hm]
        simp only [hs]
      · rw [if_neg hm]
        rw [singleCollectFold_fst s (qNormOf msg) (queryTokensOf s msg).length
          (min (max 1 (ceil06 (queryTokensOf s msg).length))
            (foundIdxs s.dict (queryTokensOf s msg)).length) bumped.1 bumped.2
          (s.scores, []) x hm]
    dsimp only
    rw [hcnt, hsc, ← ht]

theorem resolvePathD_state (s : LoadedState) (msg : SearchMessage)
    (hc : s.counts = fun _ => 0) (hs : s.scores = fun _ => 0) (ht : s.touched = []) :
    (resolvePathD s msg).2 = s := by
  unfold resolvePathD
  split
  · show {s with counts := counts0Of s msg} = s
    have h1 : counts0Of s msg = s.counts := by
      funext x
      rw [counts0Of_zero s msg hc x, hc]
    rw [h1]
  · apply resolveSingle_state s msg _ hc hs ht
    intro x hx
    apply bumpTokens_P s (guardOf s msg) _ (counts0Of s msg, s.touched) _ x hx
    intro y hy
    exact absurd (counts0Of_zero s msg hc y) hy

theorem resolveAll_state (s : LoadedState) (msg : SearchMessage)
    (h : CleanScratch s) : (resolveAll s msg).2 = s := by
  obtain ⟨hc, hs, ht⟩ := h
  unfold resolveAll
  dsimp only
  split
  · exact resolvePathA_state s msg
  · split
    · exact resolvePathB_state s msg hc
    · split
      · exact resolvePathC_state s msg hc hs
      · exact resolvePathD_state s msg hc hs ht

/-! ### Membership in the resolved vector, branch by branch -/

theorem guardOf_no_excl (s : LoadedState) (msg : SearchMessage)
    (h : (parseQuery msg.q).excludeTerms.isEmpty = true) (d : Nat) :
    guardOf s msg d = passFOf s msg d := by
  unfold guardOf
  rw [if_pos h]
  simp

theorem guardOf_excl (s : LoadedState) (msg : SearchMessage)
    (h : ¬(parseQuery msg.q).excludeTerms.isEmpty = true) (d : Nat) :
    guardOf s msg d =
      (!(buildExcludeMask s (parseQuery msg.q).excludeTerms).1 d &&
        passFOf s msg d) := by
  unfold guardOf
  rw [if_neg h]

theorem resolvePathA_mem (s : LoadedState) (msg : SearchMessage) (x : Nat) :
    x ∈ (resolvePathA s msg).1 ↔
      (identityFilters (maskFromBits msg.tagBits).1 (maskFromBits msg.tagBits).2
          (maskFromBits msg.excludeTagBits).1 (maskFromBits msg.excludeTagBits).2
          msg.hidden msg.hideChapter msg.needLogin msg.lock = false ∧
        x < s.totalCount ∧ passFOf s msg x = true) := by
  unfold resolvePathA
  split
  · rename_i hid
    simp [hid]
  · rename_i hid
    rw [mem_scanFilter]
    simp only [Bool.not_eq_true] at hid
    simp [hid, and_assoc]

theorem resolvePathB_mem (s : LoadedState) (msg : SearchMessage)
    (hne : ¬(parseQuery msg.q).excludeTerms.isEmpty = true) (x : Nat) :
    x ∈ (resolvePathB s msg).1 ↔ (x < s.totalCount ∧ guardOf s msg x = true) := by
  show x ∈ scanFilter s.totalCount
      (fun d => !(buildExcludeMask s (parseQuery msg.q).excludeTerms).1 d &&
        passFOf s msg d) (msg.sort == SortMode.id_asc) ↔ _
  rw [mem_scanFilter, guardOf_excl s msg hne]

theorem resolveCandidates_mem (s : LoadedState) (msg : SearchMessage)
    (r : (Nat → Nat) × (Nat → ℚ) × List Nat) (x : Nat) :
    x ∈ (resolveCandidates s msg r).1 ↔ x ∈ r.2.2 := by
  unfold resolveCandidates
  by_cases hemp : r.2.2.isEmpty
  · rw [if_pos hemp, List.isEmpty_iff.1 hemp]
  · rw [if_neg hemp]
    by_cases hrel : (msg.sort == SortMode.relevance) = true
    · rw [if_pos hrel]
      exact List.mem_insertionSort _
    · rw [if_neg hrel]
      exact List.mem_insertionSort _

theorem resolvePathC_mem (s : LoadedState) (msg : SearchMessage)
    (hc : s.counts = fun _ => 0) (hs : s.scores = fun _ => 0) (x : Nat) :
    x ∈ (resolvePathC s msg).1 ↔
      ∃ t ∈ (parseQuery msg.q).includeTerms,
        TermMatchT s (guardOf s msg) (uniqNgrams t s.dict.n) x := by
  unfold resolvePathC
  rw [resolveCandidates_mem]
  have hc0 : ∀ y, (counts0Of s msg, s.scores, ([] : List Nat)).1 y = 0 :=
    counts0Of_zero s msg hc
  have hQ0 : ∀ y, (0:ℚ) ≤ (counts0Of s msg, s.scores, ([] : List Nat)).2.1 y ∧
      ((counts0Of s msg, s.scores, ([] : List Nat)).2.1 y ≠ 0 ↔
        y ∈ (counts0Of s msg, s.scores, ([] : List Nat)).2.2) := by
    intro y
    show (0:ℚ) ≤ s.scores y ∧ (s.scores y ≠ 0 ↔ y ∈ ([] : List Nat))
    rw [hs]
    simp
  rcases includeFold_spec s (guardOf s msg) (msg.sort == SortMode.relevance)
    (parseQuery msg.q).includeTerms (counts0Of s msg, s.scores, []) hc0 hQ0 with
    ⟨-, -, h3⟩
  rw [h3 x]
  simp

theorem resolvePathD_mem (s : LoadedState) (msg : SearchMessage)
    (hc : s.counts = fun _ => 0) (ht : s.touched = []) (x : Nat) :
    x ∈ (resolvePathD s msg).1 ↔
      TermMatchT s (guardOf s msg) (queryTokensOf s msg) x := by
  unfold resolvePathD
  by_cases hfe : (foundIdxs s.dict (queryTokensOf s msg)).isEmpty
  · rw [if_pos hfe]
    unfold TermMatchT
    rw [List.isEmpty_iff.1 hfe]
    simp
  · rw [if_neg hfe]
    have h2 : foundIdxs s.dict (queryTokensOf s msg) ≠ [] := by
      intro h
      rw [h] at hfe
      exact hfe rfl
    have hc0 : ∀ y, (counts0Of s msg, s.touched).1 y = 0 := counts0Of_zero s msg hc
    rcases bumpTouched_match s (guardOf s msg) (queryTokensOf s msg) h2
      (counts0Of s msg, s.touched) hc0 ht x with ⟨hiff, hcnt, hPx⟩
    have hm1 : 1 ≤ min (max 1 (ceil06 (queryTokensOf s msg).length))
        (foundIdxs s.dict (queryTokensOf s msg)).length := by
      have : 1 ≤ (foundIdxs s.dict (queryTokensOf s msg)).length :=
        List.length_pos.2 h2
      omega
    unfold resolveSingle
    dsimp only
    by_cases hid : (msg.sort == SortMode.id_desc || msg.sort == SortMode.id_asc) = true
    · rw [if_pos hid]
      dsimp only
      rw [mem_scanFilter]
      constructor
      · rintro ⟨hxN, hge⟩
        rw [decide_eq_true_iff] at hge
        apply hiff.1
        refine ⟨hPx ?_, hge⟩
        intro h0
        rw [h0] at hge
        omega
      · intro hT
        rcases hiff.2 hT with ⟨-, hge⟩
        exact ⟨hT.2.2.1, decide_eq_true hge⟩
    · rw [if_neg hid]
      dsimp only
      rw [List.mem_insertionSort, singleCollectFold_snd]
      constructor
      · rintro (h0 | ⟨hmem, hge⟩)
        · exact absurd h0 (List.not_mem_nil x)
        · exact hiff.1 ⟨hmem, hge⟩
      · intro hT
        rcases hiff.2 hT with ⟨hmem, hge⟩
        exact Or.inr ⟨hmem, hge⟩

theorem resolveAll_mem (s : LoadedState) (msg : SearchMessage)
    (h : CleanScratch s) (x : Nat) :
    x ∈ (resolveAll s msg).1 ↔ ResolvePred s msg x := by
  obtain ⟨hc, hs, ht⟩ := h
  unfold resolveAll ResolvePred
  dsimp only
  by_cases hA : ((parseQuery msg.q).includeTerms.isEmpty &&
      (parseQuery msg.q).excludeTerms.isEmpty) = true
  · rw [if_pos hA, if_pos hA]
    exact resolvePathA_mem s msg x
  · rw [if_neg hA, if_neg hA]
    by_cases hB : (parseQuery msg.q).includeTerms.isEmpty = true
    · rw [if_pos hB, if_pos hB]
      apply resolvePathB_mem s msg
      intro hexc
      exact hA (by simp [hB, hexc])
    · rw [if_neg hB, if_neg hB]
      by_cases hC : 1 < (parseQuery msg.q).includeTerms.length
      · rw [if_pos hC, if_pos hC]
        exact resolvePathC_mem s msg hc hs x
      · rw [if_neg hC, if_neg hC]
        exact resolvePathD_mem s msg hc ht x

/-! ### Pagination clamps and the shared return tail -/

theorem one_le_clampSize (x : Int) : 1 ≤ clampSize x := by
  unfold clampSize
  have h1 : (1 : Int) ≤ max 1 (min 100 x) := le_max_left _ _
  have h0 : (0 : Int) ≤ max 1 (min 100 x) := le_trans zero_le_one h1
  exact (Int.le_toNat h0).2 h1

theorem clampSize_le_100 (x : Int) : clampSize x ≤ 100 := by
  unfold clampSize
  rw [Int.toNat_le]
  exact max_le (by norm_num) (le_trans (min_le_left _ _) (by norm_num))

theorem mkPage_items_le (st : LoadedState) (rid page size : Nat) (all : List Nat) :
    (mkPage st rid page size all).items.length ≤ size := by
  unfold mkPage
  dsimp only
  rw [List.length_map]
  exact List.length_take_le _ _

theorem searchSync_of_cache_none (s : LoadedState) (msg : SearchMessage)
    (hcache : s.cache = none) :
    searchSync s msg = searchMiss s msg (clampPage msg.page) (clampSize msg.size)
      (planKeyOf msg) := by
  unfold searchSync
  rw [hcache]

theorem buildItem_cache (s : LoadedState) (c : Option (PlanKey × List Nat)) :
    buildItem {s with cache := c} = buildItem s := rfl

/-- C9: scratch-buffer invariant.  Starting from resting scratch arrays
(all-zero counters and scores, empty touched list), every completed
`searchSync` call returns the engine to resting scratch arrays: each
branch zeroes, via the touched lists, exactly the entries it
incremented. -/
theorem searchSync_scratch_invariant (s : LoadedState) (msg : SearchMessage)
    (h : CleanScratch s) : CleanScratch (searchSync s msg).2 := by
  obtain ⟨hc, hs, ht⟩ := h
  have hmiss : ∀ (page size : Nat) (key : PlanKey),
      CleanScratch (searchMiss s msg page size key).2 := by
    intro page size key
    unfold searchMiss
    dsimp only
    rw [resolveAll_state s msg ⟨hc, hs, ht⟩]
    exact ⟨hc, hs, ht⟩
  unfold searchSync
  dsimp only
  cases hcc : s.cache with
  | none => exact hmiss _ _ _
  | some kc =>
    dsimp only
    split
    · exact ⟨hc, hs, ht⟩
    · exact hmiss _ _ _

/-- C9 witness: the invariant at the concrete one-document corpus and
the bigram query "ab". -/
theorem searchSync_scratch_invariant_witness :
    CleanScratch (searchSync stateAb msgAb).2 :=
  searchSync_scratch_invariant stateAb msgAb ⟨rfl, rfl, rfl⟩

/-- C10: the engine clamps the requested pagination before use: the
results message echoes size `max 1 (min 100 size)` and page
`max 1 page`, and its item list never exceeds 100 entries, whatever the
caller sent. -/
theorem searchSync_pagination_clamped (s : LoadedState) (msg : SearchMessage) :
    (searchSync s msg).1.size = clampSize msg.size ∧
    (searchSync s msg).1.page = clampPage msg.page ∧
    1 ≤ (searchSync s msg).1.size ∧
    (searchSync s msg).1.items.length ≤ 100 := by
  have hitems : ∀ (st : LoadedState) (rid page : Nat) (all : List Nat),
      (mkPage st rid page (clampSize msg.size) all).items.length ≤ 100 :=
    fun st rid page all =>
      le_trans (mkPage_items_le st rid page (clampSize msg.size) all)
        (clampSize_le_100 msg.size)
  unfold searchSync searchMiss
  dsimp only
  cases hcc : s.cache with
  | none =>
    exact ⟨rfl, rfl, one_le_clampSize msg.size, hitems _ _ _ _⟩
  | some kc =>
    dsimp only
    split
    · exact ⟨rfl, rfl, one_le_clampSize msg.size, hitems _ _ _ _⟩
    · exact ⟨rfl, rfl, one_le_clampSize msg.size, hitems _ _ _ _⟩

/-- C3 witness: the roundtrip at the concrete increasing list
`[0, 2, 130]` embedded between unrelated bytes. -/
theorem decodePostings_roundtrip_witness :
    List.Chain' (· < ·) [0, 2, 130] ∧ (∀ d ∈ [0, 2, 130], d + 1 < 2 ^ 31) ∧
    decodePostings ([7] ++ (encodePostings [0, 2, 130] (-1) ++ [9])) 1
        (encodePostings [0, 2, 130] (-1)).length =
      [0, 2, 130].map (fun d => Int.ofNat d) :=
  ⟨(by rw [List.chain'_cons, List.chain'_cons]; exact ⟨by norm_num, by norm_num, List.chain'_singleton _⟩), by decide,
   decodePostings_roundtrip [7] [0, 2, 130] [9]
     (by rw [List.chain'_cons, List.chain'_cons]; exact ⟨by norm_num, by norm_num, List.chain'_singleton _⟩) (by decide)⟩

/-- C2 counterexample: the query "-ab" parses to no include terms, and
all filters of the message are identity, yet on a one-document corpus
the engine returns that document (total 1), not the empty result: the
exclude-only branch scans the filtered corpus instead of refusing. -/
theorem searchSync_empty_intent_counterexample :
    (parseQuery msgExclAb.q).includeTerms.isEmpty = true ∧
    identityFilters (maskFromBits msgExclAb.tagBits).1
      (maskFromBits msgExclAb.tagBits).2 (maskFromBits msgExclAb.excludeTagBits).1
      (maskFromBits msgExclAb.excludeTagBits).2 msgExclAb.hidden
      msgExclAb.hideChapter msgExclAb.needLogin msgExclAb.lock = true ∧
    ¬((searchSync stateOne msgExclAb).1.total = 0 ∧
      (searchSync stateOne msgExclAb).1.items = []) := by
  decide

/-- C2 (amended): when the query parses to no include terms AND no
exclude terms, every filter is identity, and the result cache is empty,
the search returns the empty result: `total = 0`, `hasMore = false`, no
items. -/
theorem searchSync_empty_intent (s : LoadedState) (msg : SearchMessage)
    (hcache : s.cache = none)
    (hinc : (parseQuery msg.q).includeTerms.isEmpty = true)
    (hexc : (parseQuery msg.q).excludeTerms.isEmpty = true)
    (hid : identityFilters (maskFromBits msg.tagBits).1 (maskFromBits msg.tagBits).2
      (maskFromBits msg.excludeTagBits).1 (maskFromBits msg.excludeTagBits).2
      msg.hidden msg.hideChapter msg.needLogin msg.lock = true) :
    (searchSync s msg).1.total = 0 ∧ (searchSync s msg).1.hasMore = false ∧
    (searchSync s msg).1.items = [] := by
  have hall : resolveAll s msg = ([], s) := by
    unfold resolveAll resolvePathA
    dsimp only
    rw [if_pos (by simp [hinc, hexc]), if_pos hid]
  rw [searchSync_of_cache_none s msg hcache]
  unfold searchMiss
  dsimp only
  rw [hall]
  unfold mkPage
  dsimp only
  refine ⟨rfl, by simp, by simp⟩

/-- C2 witness: the empty query with identity filters on the
one-document corpus returns the empty result. -/
theorem searchSync_empty_intent_witness :
    (searchSync stateOne msgBase).1.total = 0 ∧
    (searchSync stateOne msgBase).1.hasMore = false ∧
    (searchSync stateOne msgBase).1.items = [] :=
  searchSync_empty_intent stateOne msgBase rfl (by decide) (by decide) (by decide)

/-! ### Pagination: the pages of a vector concatenate to the vector -/

theorem bind_map_succ (f : Nat → List Nat) :
    ∀ (r : List Nat), (r.map Nat.succ).bind f = r.bind (fun p => f (p + 1)) := by
  intro r
  induction r with
  | nil => rfl
  | cons a t ih =>
    show f (a + 1) ++ (t.map Nat.succ).bind f = f (a + 1) ++ t.bind (fun p => f (p + 1))
    rw [ih]

theorem pages_concat_aux (sz : Nat) (hsz : 1 ≤ sz) :
    ∀ (n : Nat) (l : List Nat), l.length ≤ n * sz →
      (List.range n).bind (fun p => (l.drop (p * sz)).take sz) = l := by
  intro n
  induction n with
  | zero =>
    intro l h
    have hnil : l = [] := List.eq_nil_of_length_eq_zero (by omega)
    rw [hnil]
    rfl
  | succ m ih =>
    intro l h
    rw [List.range_succ_eq_map]
    show (l.drop (0 * sz)).take sz ++
        ((List.range m).map Nat.succ).bind (fun p => (l.drop (p * sz)).take sz) = l
    rw [bind_map_succ]
    have hstep : (fun p => (l.drop ((p + 1) * sz)).take sz) =
        (fun p => ((l.drop sz).drop (p * sz)).take sz) := by
      funext p
      rw [List.drop_drop]
      have harith : (p + 1) * sz = sz + p * sz := by ring
      rw [harith]
    rw [hstep]
    have hlen : (l.drop sz).length ≤ m * sz := by
      rw [List.length_drop]
      rw [Nat.succ_mul] at h
      omega
    rw [ih (l.drop sz) hlen, Nat.zero_mul, List.drop_zero]
    exact List.take_append_drop sz l

theorem pages_concat (l : List Nat) (sz : Nat) (hsz : 1 ≤ sz) :
    (List.range ((l.length + sz - 1) / sz)).bind
      (fun p => (l.drop (p * sz)).take sz) = l := by
  apply pages_concat_aux sz hsz
  by_contra hlt
  push_neg at hlt
  have h2 : (l.length + sz - 1) / sz + 1 ≤ (l.length + sz - 1) / sz := by
    rw [Nat.le_div_iff_mul_le (by omega : 0 < sz), Nat.succ_mul]
    omega
  omega

/-- C4: for every search with clean scratch state and an empty result
cache, with `p` the effective page and `sz` the effective size, `total`
is the length of the fully resolved doc-id vector, the items are the
built entries of its slice `[(p-1)*sz, (p-1)*sz + sz)`, `hasMore` holds
iff the slice's upper bound is below the total, and the concatenation of
all pages of size `sz` is the full vector. -/
theorem searchSync_pagination (s : LoadedState) (msg : SearchMessage)
    (h : CleanScratch s) (hcache : s.cache = none) :
    (searchSync s msg).1.total = (resolveAll s msg).1.length ∧
    (searchSync s msg).1.items =
      (((resolveAll s msg).1.drop ((clampPage msg.page - 1) * clampSize msg.size)).take
        (clampSize msg.size)).map (buildItem s) ∧
    ((searchSync s msg).1.hasMore = true ↔
      (clampPage msg.page - 1) * clampSize msg.size + clampSize msg.size <
        (resolveAll s msg).1.length) ∧
    (List.range (((resolveAll s msg).1.length + clampSize msg.size - 1) /
        clampSize msg.size)).bind
        (fun p => ((resolveAll s msg).1.drop (p * clampSize msg.size)).take
          (clampSize msg.size)) =
      (resolveAll s msg).1 := by
  rw [searchSync_of_cache_none s msg hcache]
  unfold searchMiss
  dsimp only
  rw [resolveAll_state s msg h]
  unfold mkPage
  dsimp only
  refine ⟨rfl, ?_, ?_, ?_⟩
  · rw [buildItem_cache]
  · exact decide_eq_true_iff
  · exact pages_concat _ _ (one_le_clampSize msg.size)

/-- C4 witness: pagination at the concrete corpus, query "ab", page 1 of
size 10. -/
theorem searchSync_pagination_witness :
    (searchSync stateAb msgAb).1.total = (resolveAll stateAb msgAb).1.length ∧
    (searchSync stateAb msgAb).1.items =
      (((resolveAll stateAb msgAb).1.drop
          ((clampPage msgAb.page - 1) * clampSize msgAb.size)).take
        (clampSize msgAb.size)).map (buildItem stateAb) ∧
    ((searchSync stateAb msgAb).1.hasMore = true ↔
      (clampPage msgAb.page - 1) * clampSize msgAb.size + clampSize msgAb.size <
        (resolveAll stateAb msgAb).1.length) ∧
    (List.range (((resolveAll stateAb msgAb).1.length + clampSize msgAb.size - 1) /
        clampSize msgAb.size)).bind
        (fun p => ((resolveAll stateAb msgAb).1.drop (p * clampSize msgAb.size)).take
          (clampSize msgAb.size)) =
      (resolveAll stateAb msgAb).1 :=
  searchSync_pagination stateAb msgAb ⟨rfl, rfl, rfl⟩ rfl

/-! ### The result cache -/

/-- Two messages that agree on every planner field differ only in
`requestId`, `page` and `size`. -/
theorem msg_eq_of_plan_fields (msg1 msg2 : SearchMessage)
    (hq : msg1.q = msg2.q) (htb : msg1.tagBits = msg2.tagBits)
    (hetb : msg1.excludeTagBits = msg2.excludeTagBits)
    (hh : msg1.hidden = msg2.hidden) (hhc : msg1.hideChapter = msg2.hideChapter)
    (hnl : msg1.needLogin = msg2.needLogin) (hlk : msg1.lock = msg2.lock)
    (hsrt : msg1.sort = msg2.sort) :
    msg1 = {msg2 with requestId := msg1.requestId, page := msg1.page,
                      size := msg1.size} := by
  cases msg1
  cases msg2
  dsimp only at hq htb hetb hh hhc hnl hlk hsrt
  subst hq htb hetb hh hhc hnl hlk hsrt
  rfl

/-- C8: the result-cache fast path is equivalent to recomputation.
Starting from clean scratch and an empty cache, running `msg1` and then
a `msg2` that agrees with it on every planner field (query, tag masks,
status filters, sort) returns for `msg2` exactly the results message a
fresh evaluation of `msg2` would return, and the vector `msg1` left in
the cache is the one `msg2` would freshly compute. -/
theorem searchSync_cache_equiv (s : LoadedState) (msg1 msg2 : SearchMessage)
    (h : CleanScratch s) (hcache : s.cache = none)
    (hq : msg1.q = msg2.q) (htb : msg1.tagBits = msg2.tagBits)
    (hetb : msg1.excludeTagBits = msg2.excludeTagBits)
    (hh : msg1.hidden = msg2.hidden) (hhc : msg1.hideChapter = msg2.hideChapter)
    (hnl : msg1.needLogin = msg2.needLogin) (hlk : msg1.lock = msg2.lock)
    (hsrt : msg1.sort = msg2.sort) :
    (searchSync (searchSync s msg1).2 msg2).1 = (searchSync s msg2).1 ∧
    (searchSync s msg1).2.cache = some (planKeyOf msg2, (resolveAll s msg2).1) := by
  have hm := msg_eq_of_plan_fields msg1 msg2 hq htb hetb hh hhc hnl hlk hsrt
  have hpk : planKeyOf msg1 = planKeyOf msg2 := by rw [hm]; rfl
  have hra : resolveAll s msg1 = resolveAll s msg2 := by rw [hm]; rfl
  have hs1 : (searchSync s msg1).2 =
      {s with cache := some (planKeyOf msg1, (resolveAll s msg1).1)} := by
    rw [searchSync_of_cache_none s msg1 hcache]
    unfold searchMiss
    dsimp only
    rw [resolveAll_state s msg1 h]
  have hrhs : (searchSync s msg2).1 =
      mkPage {s with cache := some (planKeyOf msg2, (resolveAll s msg2).1)}
        msg2.requestId (clampPage msg2.page) (clampSize msg2.size)
        (resolveAll s msg2).1 := by
    rw [searchSync_of_cache_none s msg2 hcache]
    unfold searchMiss
    dsimp only
    rw [resolveAll_state s msg2 h]
  have hlhs : (searchSync
        {s with cache := some (planKeyOf msg2, (resolveAll s msg2).1)} msg2).1 =
      mkPage {s with cache := some (planKeyOf msg2, (resolveAll s msg2).1)}
        msg2.requestId (clampPage msg2.page) (clampSize msg2.size)
        (resolveAll s msg2).1 := by
    unfold searchSync
    dsimp only
    rw [if_pos rfl]
  constructor
  · rw [hs1, hpk, hra, hlhs, hrhs]
  · rw [hs1, hpk, hra]

/-- C8 witness: page 2 after page 1 of the query "ab" on the concrete
corpus equals its fresh evaluation. -/
theorem searchSync_cache_equiv_witness :
    (searchSync (searchSync stateAb msgAb).2 {msgAb with requestId := 1, page := 2}).1 =
      (searchSync stateAb {msgAb with requestId := 1, page := 2}).1 ∧
    (searchSync stateAb msgAb).2.cache =
      some (planKeyOf {msgAb with requestId := 1, page := 2},
        (resolveAll stateAb {msgAb with requestId := 1, page := 2}).1) :=
  searchSync_cache_equiv stateAb msgAb {msgAb with requestId := 1, page := 2}
    ⟨rfl, rfl, rfl⟩ rfl rfl rfl rfl rfl rfl rfl rfl rfl

/-! ### Tag-filter composition -/

theorem lor_eq_zero_left {a b : Nat} (h : a ||| b = 0) : a = 0 := by
  apply Nat.eq_of_testBit_eq
  intro i
  have hi := congrArg (fun x => Nat.testBit x i) h
  simp only [Nat.testBit_or, Nat.zero_testBit] at hi ⊢
  cases hta : a.testBit i <;> simp_all

theorem and_lor_absorb {t a c : Nat} (h : t &&& (a ||| c) = a ||| c) :
    t &&& a = a := by
  apply Nat.eq_of_testBit_eq
  intro i
  have hi := congrArg (fun x => Nat.testBit x i) h
  simp only [Nat.testBit_and, Nat.testBit_or] at hi ⊢
  cases hta : a.testBit i <;> cases htc : c.testBit i <;> simp_all

/-- Passing the filters with an enlarged selected-tag mask implies
passing them with the component mask. -/
theorem passesFilters_mono (s : LoadedState) (d : Nat)
    (loA hiA clo chi exLo exHi : Nat) (f1 f2 f3 f4 : FilterMode)
    (hp : passesFilters s d (loA ||| clo) (hiA ||| chi) exLo exHi
      f1 f2 f3 f4 = true) :
    passesFilters s d loA hiA exLo exHi f1 f2 f3 f4 = true := by
  unfold passesFilters at hp ⊢
  simp only [Bool.and_eq_true] at hp ⊢
  obtain ⟨⟨⟨⟨⟨⟨hsel, he1⟩, he2⟩, hf1⟩, hf2⟩, hf3⟩, hf4⟩ := hp
  refine ⟨⟨⟨⟨⟨⟨?_, he1⟩, he2⟩, hf1⟩, hf2⟩, hf3⟩, hf4⟩
  by_cases hA0 : loA ≠ 0 ∨ hiA ≠ 0
  · rw [if_pos hA0]
    have hU0 : loA ||| clo ≠ 0 ∨ hiA ||| chi ≠ 0 := by
      rcases hA0 with h | h
      · exact Or.inl (fun hz => h (lor_eq_zero_left hz))
      · exact Or.inr (fun hz => h (lor_eq_zero_left hz))
    rw [if_pos hU0, Bool.and_eq_true] at hsel
    rw [Bool.and_eq_true]
    obtain ⟨h1, h2⟩ := hsel
    refine ⟨?_, ?_⟩
    · rw [beq_iff_eq] at h1 ⊢
      exact and_lor_absorb h1
    · rw [beq_iff_eq] at h2 ⊢
      exact and_lor_absorb h2
  · rw [if_neg hA0]

/-- The per-doc guard is antitone in the selected-tag mask. -/
theorem guardOf_tag_mono (s : LoadedState) (msg : SearchMessage)
    (bits bitsU : List Int) (clo chi : Nat)
    (hlo : (maskFromBits bitsU).1 = (maskFromBits bits).1 ||| clo)
    (hhi : (maskFromBits bitsU).2 = (maskFromBits bits).2 ||| chi)
    (d : Nat) (hg : guardOf s {msg with tagBits := bitsU} d = true) :
    guardOf s {msg with tagBits := bits} d = true := by
  unfold guardOf at hg ⊢
  dsimp only at hg ⊢
  rw [Bool.and_eq_true] at hg ⊢
  refine ⟨hg.1, ?_⟩
  have h2 := hg.2
  unfold passFOf at h2 ⊢
  dsimp only at h2 ⊢
  rw [hlo, hhi] at h2
  exact passesFilters_mono s d _ _ clo chi _ _ _ _ _ _ h2

theorem termMatchT_mono (s : LoadedState) (g g2 : Nat → Bool)
    (tt : List (List Nat)) (x : Nat) (hgg : g x = true → g2 x = true)
    (h : TermMatchT s g tt x) : TermMatchT s g2 tt x := by
  obtain ⟨h1, h2, h3, h4⟩ := h
  exact ⟨h1, hgg h2, h3, h4⟩

/-- Result membership is antitone in the selected-tag mask, as long as
the component selection triggers the empty-intent refusal only if the
united selection does: the proviso is conditional on the query parsing
to no terms, the only situation in which the refusal can fire, so it is
vacuous for every termful query. -/
theorem resolvePred_tag_mono (s : LoadedState) (msg : SearchMessage)
    (bits bitsU : List Int) (clo chi : Nat)
    (hlo : (maskFromBits bitsU).1 = (maskFromBits bits).1 ||| clo)
    (hhi : (maskFromBits bitsU).2 = (maskFromBits bits).2 ||| chi)
    (hid : ((parseQuery msg.q).includeTerms.isEmpty &&
        (parseQuery msg.q).excludeTerms.isEmpty) = true →
      identityFilters (maskFromBits bits).1 (maskFromBits bits).2
        (maskFromBits msg.excludeTagBits).1 (maskFromBits msg.excludeTagBits).2
        msg.hidden msg.hideChapter msg.needLogin msg.lock = true →
      identityFilters (maskFromBits bitsU).1 (maskFromBits bitsU).2
        (maskFromBits msg.excludeTagBits).1 (maskFromBits msg.excludeTagBits).2
        msg.hidden msg.hideChapter msg.needLogin msg.lock = true)
    (x : Nat) (hx : ResolvePred s {msg with tagBits := bitsU} x) :
    ResolvePred s {msg with tagBits := bits} x := by
  unfold ResolvePred at hx ⊢
  dsimp only at hx ⊢
  by_cases hA : ((parseQuery msg.q).includeTerms.isEmpty &&
      (parseQuery msg.q).excludeTerms.isEmpty) = true
  · rw [if_pos hA] at hx ⊢
    obtain ⟨hidU, hxN, hpU⟩ := hx
    refine ⟨?_, hxN, ?_⟩
    · cases hne : identityFilters (maskFromBits bits).1 (maskFromBits bits).2
          (maskFromBits msg.excludeTagBits).1 (maskFromBits msg.excludeTagBits).2
          msg.hidden msg.hideChapter msg.needLogin msg.lock
      · rfl
      · have h2 := hid hA hne
        rw [hidU] at h2
        exact Bool.noConfusion h2
    · unfold passFOf at hpU ⊢
      dsimp only at hpU ⊢
      rw [hlo, hhi] at hpU
      exact passesFilters_mono s x _ _ _ _ _ _ _ _ _ _ hpU
  · rw [if_neg hA] at hx ⊢
    by_cases hB : (parseQuery msg.q).includeTerms.isEmpty = true
    · rw [if_pos hB] at hx ⊢
      exact ⟨hx.1, guardOf_tag_mono s msg bits bitsU clo chi hlo hhi x hx.2⟩
    · rw [if_neg hB] at hx ⊢
      by_cases hC : 1 < (parseQuery msg.q).includeTerms.length
      · rw [if_pos hC] at hx ⊢
        obtain ⟨t, ht, hm⟩ := hx
        exact ⟨t, ht, termMatchT_mono s _ _ _ x
          (guardOf_tag_mono s msg bits bitsU clo chi hlo hhi x) hm⟩
      · rw [if_neg hC] at hx ⊢
        exact termMatchT_mono s _ _ _ x
          (guardOf_tag_mono s msg bits bitsU clo chi hlo hhi x) hx

/-- C6 counterexample: with an empty query and identity status filters,
selected tags A = {} trigger the empty-intent refusal while A union B
do not, so the doc matching tag set A union B lies in result(A union B)
but not in result(A): the claimed inclusion fails without a guard on
the empty-intent branch. -/
theorem tag_union_subset_counterexample :
    (maskFromBits msgTag0.tagBits).1 =
      (maskFromBits msgBase.tagBits).1 ||| (maskFromBits msgTag0.tagBits).1 ∧
    (maskFromBits msgTag0.tagBits).2 =
      (maskFromBits msgBase.tagBits).2 ||| (maskFromBits msgTag0.tagBits).2 ∧
    0 ∈ (resolveAll stateOne msgTag0).1 ∧
    0 ∉ (resolveAll stateOne msgBase).1 := by
  decide

/-- C6 (amended): the result set for selected tags A union B (united
masks) is contained in the intersection of the result sets for A and
for B, for messages equal in every other field — provided each of A and
B triggers the empty-intent refusal only if A union B does: when the
query parses to no terms and a component's filters are all identity,
the union's must be identity too.  The proviso is vacuously true for
every query with terms; without it the refusal on an empty component
selection breaks the inclusion (see the counterexample). -/
theorem tag_union_subset (s : LoadedState) (msg : SearchMessage)
    (bitsA bitsB bitsU : List Int) (h : CleanScratch s)
    (hUlo : (maskFromBits bitsU).1 =
      (maskFromBits bitsA).1 ||| (maskFromBits bitsB).1)
    (hUhi : (maskFromBits bitsU).2 =
      (maskFromBits bitsA).2 ||| (maskFromBits bitsB).2)
    (hidA : ((parseQuery msg.q).includeTerms.isEmpty &&
        (parseQuery msg.q).excludeTerms.isEmpty) = true →
      identityFilters (maskFromBits bitsA).1 (maskFromBits bitsA).2
        (maskFromBits msg.excludeTagBits).1 (maskFromBits msg.excludeTagBits).2
        msg.hidden msg.hideChapter msg.needLogin msg.lock = true →
      identityFilters (maskFromBits bitsU).1 (maskFromBits bitsU).2
        (maskFromBits msg.excludeTagBits).1 (maskFromBits msg.excludeTagBits).2
        msg.hidden msg.hideChapter msg.needLogin msg.lock = true)
    (hidB : ((parseQuery msg.q).includeTerms.isEmpty &&
        (parseQuery msg.q).excludeTerms.isEmpty) = true →
      identityFilters (maskFromBits bitsB).1 (maskFromBits bitsB).2
        (maskFromBits msg.excludeTagBits).1 (maskFromBits msg.excludeTagBits).2
        msg.hidden msg.hideChapter msg.needLogin msg.lock = true →
      identityFilters (maskFromBits bitsU).1 (maskFromBits bitsU).2
        (maskFromBits msg.excludeTagBits).1 (maskFromBits msg.excludeTagBits).2
        msg.hidden msg.hideChapter msg.needLogin msg.lock = true)
    (x : Nat) (hx : x ∈ (resolveAll s {msg with tagBits := bitsU}).1) :
    x ∈ (resolveAll s {msg with tagBits := bitsA}).1 ∧
    x ∈ (resolveAll s {msg with tagBits := bitsB}).1 := by
  rw [resolveAll_mem _ _ h] at hx
  constructor
  · rw [resolveAll_mem _ _ h]
    exact resolvePred_tag_mono s msg bitsA bitsU _ _ hUlo hUhi hidA x hx
  · rw [resolveAll_mem _ _ h]
    exact resolvePred_tag_mono s msg bitsB bitsU _ _
      (by rw [hUlo, Nat.lor_comm]) (by rw [hUhi, Nat.lor_comm]) hidB x hx

/-- C6 witness: the inclusion on the concrete corpus for the termful
query "ab" with A = {} and B = A union B = tag bit 0 — the refusal
proviso is vacuous because the query has a term. -/
theorem tag_union_subset_witness :
    (maskFromBits ([0] : List Int)).1 =
      (maskFromBits ([] : List Int)).1 ||| (maskFromBits ([0] : List Int)).1 ∧
    0 ∈ (resolveAll stateAb {msgAb with tagBits := [0]}).1 ∧
    (0 ∈ (resolveAll stateAb {msgAb with tagBits := ([] : List Int)}).1 ∧
     0 ∈ (resolveAll stateAb {msgAb with tagBits := [0]}).1) :=
  ⟨by decide, by decide,
   tag_union_subset stateAb msgAb [] [0] [0] ⟨rfl, rfl, rfl⟩ (by decide)
     (by decide) (by decide) (by decide) 0 (by decide)⟩

/-! ### The hit threshold in terms of containing tokens -/

/-- Over strictly increasing posting lists (the format invariant), the
occurrence total of a doc equals the number of tokens whose posting list
contains it. -/
theorem occs_eq_hitTokens (s : LoadedState) (x : Nat) :
    ∀ (idxs : List Nat),
      (∀ idx ∈ idxs, List.Chain' (· < ·) (postingsOf s idx)) →
      occs s idxs x = hitTokens s idxs x := by
  intro idxs
  induction idxs with
  | nil => intro _; rfl
  | cons i rest ih =>
    intro hchain
    have hrest : occs s rest x = hitTokens s rest x :=
      ih (fun j hj => hchain j (List.mem_cons_of_mem i hj))
    unfold occs hitTokens
    unfold occs hitTokens at hrest
    rw [List.map_cons, List.sum_cons, List.filter_cons]
    have hnd : (postingsOf s i).Nodup :=
      (List.chain'_iff_pairwise.1 (hchain i (List.mem_cons_self i rest))).imp ne_of_lt
    by_cases hmem : ((x : Nat) : Int) ∈ postingsOf s i
    · have hc1 : (postingsOf s i).count ((x : Nat) : Int) = 1 :=
        Nat.le_antisymm (List.nodup_iff_count_le_one.1 hnd _)
          (List.count_pos_iff.2 hmem)
      rw [hc1, hrest]
      simp [hmem, Nat.add_comm]
    · have hc0 : (postingsOf s i).count ((x : Nat) : Int) = 0 :=
        List.count_eq_zero_of_not_mem hmem
      rw [hc0, hrest]
      simp [hmem]

/-- `TermMatchT` with the wrap-free hit count: under the sorted-postings
invariant and fewer than `2^16` found tokens, the `Uint16` counter
cannot wrap, and the threshold test is on the number of containing
tokens. -/
theorem termMatchT_hitTokens (s : LoadedState) (g : Nat → Bool)
    (tt : List (List Nat)) (x : Nat)
    (hchain : ∀ idx ∈ foundIdxs s.dict tt, List.Chain' (· < ·) (postingsOf s idx))
    (hlen : (foundIdxs s.dict tt).length < 65536) :
    (TermMatchT s g tt x ↔
      (foundIdxs s.dict tt ≠ [] ∧ g x = true ∧ x < s.totalCount ∧
        min (max 1 (ceil06 tt.length)) (foundIdxs s.dict tt).length ≤
          hitTokens s (foundIdxs s.dict tt) x)) := by
  unfold TermMatchT
  dsimp only
  have ho : occs s (foundIdxs s.dict tt) x = hitTokens s (foundIdxs s.dict tt) x :=
    occs_eq_hitTokens s x (foundIdxs s.dict tt) hchain
  have hle : hitTokens s (foundIdxs s.dict tt) x ≤ (foundIdxs s.dict tt).length := by
    unfold hitTokens
    exact List.length_filter_le _ _
  rw [ho, Nat.mod_eq_of_lt (lt_of_le_of_lt hle hlen)]

/-- A query with exactly one include term resolves through the
single-term branch. -/
theorem resolveAll_eq_pathD (s : LoadedState) (msg : SearchMessage)
    (hone : (parseQuery msg.q).includeTerms.length = 1) :
    resolveAll s msg = resolvePathD s msg := by
  have hne : (parseQuery msg.q).includeTerms.isEmpty = false := by
    cases hh : (parseQuery msg.q).includeTerms
    · rw [hh] at hone
      simp at hone
    · rfl
  unfold resolveAll
  dsimp only
  rw [if_neg (by simp [hne]), if_neg (by simp [hne]),
    if_neg (by rw [hone]; exact lt_irrefl 1)]

/-- C1 (amended): for a single include term, a doc is in the result iff
some token was found, the doc passes the guard, is a real doc-id, and
the number of the term's found tokens whose posting lists contain it
reaches `min(max(1, ceil(0.6 * k)), #found)` — the threshold is clamped
by the number of tokens FOUND in the dictionary, not by `k`; the same
clamped threshold governs a (single) exclude term's mask.  The sorted
ascending posting lists and a sub-`2^16` token count keep the `Uint16`
hit counters exact. -/
theorem minhit_threshold (s : LoadedState) (msg : SearchMessage)
    (h : CleanScratch s)
    (hone : (parseQuery msg.q).includeTerms.length = 1)
    (hchain : ∀ idx ∈ foundIdxs s.dict (queryTokensOf s msg),
      List.Chain' (· < ·) (postingsOf s idx))
    (hlen : (foundIdxs s.dict (queryTokensOf s msg)).length < 65536)
    (term : List Nat)
    (hchainE : ∀ idx ∈ foundIdxs s.dict (uniqNgrams term s.dict.n),
      List.Chain' (· < ·) (postingsOf s idx))
    (hlenE : (foundIdxs s.dict (uniqNgrams term s.dict.n)).length < 65536)
    (x : Nat) :
    (x ∈ (resolveAll s msg).1 ↔
      (foundIdxs s.dict (queryTokensOf s msg) ≠ [] ∧ guardOf s msg x = true ∧
        x < s.totalCount ∧
        min (max 1 (ceil06 (queryTokensOf s msg).length))
            (foundIdxs s.dict (queryTokensOf s msg)).length ≤
          hitTokens s (foundIdxs s.dict (queryTokensOf s msg)) x)) ∧
    ((buildExcludeMask s [term]).1 x = true ↔
      (foundIdxs s.dict (uniqNgrams term s.dict.n) ≠ [] ∧ x < s.totalCount ∧
        min (max 1 (ceil06 (uniqNgrams term s.dict.n).length))
            (foundIdxs s.dict (uniqNgrams term s.dict.n)).length ≤
          hitTokens s (foundIdxs s.dict (uniqNgrams term s.dict.n)) x)) := by
  obtain ⟨hc, hs, ht⟩ := h
  constructor
  · rw [resolveAll_eq_pathD s msg hone, resolvePathD_mem s msg hc ht x]
    exact termMatchT_hitTokens s (guardOf s msg) (queryTokensOf s msg) x hchain hlen
  · rw [buildExcludeMask_single s term hc x,
      termMatchT_hitTokens s (fun _ => true) (uniqNgrams term s.dict.n) x hchainE hlenE]
    constructor
    · rintro ⟨h1, -, h3, h4⟩
      exact ⟨h1, h3, h4⟩
    · rintro ⟨h1, h3, h4⟩
      exact ⟨h1, rfl, h3, h4⟩

/-- C1 counterexample: on the query "abc" only the bigram "ab" of the
two bigrams is in the dictionary; the code clamps the threshold to the
1 found token and matches doc 0, whose containing-token count 1 is below
the claimed `min(k, max(1, ceil(0.6 * k))) = 2`. -/
theorem minhit_clamp_counterexample :
    0 ∈ (resolveAll stateAb msgAbc).1 ∧
    hitTokens stateAb (foundIdxs stateAb.dict (queryTokensOf stateAb msgAbc)) 0 <
      min (queryTokensOf stateAb msgAbc).length
        (max 1 (ceil06 (queryTokensOf stateAb msgAbc).length)) := by
  decide

/-- C1 witness: the threshold characterization at the concrete corpus,
query "ab", exclude term "ab", doc 0. -/
theorem minhit_threshold_witness :
    (parseQuery msgAb.q).includeTerms.length = 1 ∧
    ((0 ∈ (resolveAll stateAb msgAb).1 ↔
      (foundIdxs stateAb.dict (queryTokensOf stateAb msgAb) ≠ [] ∧
        guardOf stateAb msgAb 0 = true ∧ 0 < stateAb.totalCount ∧
        min (max 1 (ceil06 (queryTokensOf stateAb msgAb).length))
            (foundIdxs stateAb.dict (queryTokensOf stateAb msgAb)).length ≤
          hitTokens stateAb (foundIdxs stateAb.dict (queryTokensOf stateAb msgAb)) 0)) ∧
    ((buildExcludeMask stateAb [[97, 98]]).1 0 = true ↔
      (foundIdxs stateAb.dict (uniqNgrams [97, 98] stateAb.dict.n) ≠ [] ∧
        0 < stateAb.totalCount ∧
        min (max 1 (ceil06 (uniqNgrams [97, 98] stateAb.dict.n).length))
            (foundIdxs stateAb.dict (uniqNgrams [97, 98] stateAb.dict.n)).length ≤
          hitTokens stateAb (foundIdxs stateAb.dict
            (uniqNgrams [97, 98] stateAb.dict.n)) 0))) :=
  ⟨by decide,
   minhit_threshold stateAb msgAb ⟨rfl, rfl, rfl⟩ (by decide)
     (by
       have hf : foundIdxs stateAb.dict (queryTokensOf stateAb msgAb) = [0] := by
         decide
       rw [hf]
       intro idx hidx
       have h0 := List.mem_singleton.1 hidx
       subst h0
       have hp : postingsOf stateAb 0 = [0] := by decide
       rw [hp]
       exact List.chain'_singleton _)
     (by decide) [97, 98]
     (by
       have hf : foundIdxs stateAb.dict (uniqNgrams [97, 98] stateAb.dict.n) = [0] := by
         decide
       rw [hf]
       intro idx hidx
       have h0 := List.mem_singleton.1 hidx
       subst h0
       have hp : postingsOf stateAb 0 = [0] := by decide
       rw [hp]
       exact List.chain'_singleton _)
     (by decide) 0⟩

end ZmhSearch
